import Mathlib

/-!
Verification of the streaming speech-recognition pipeline
(`src/speech_recognition/numpy_ring_buffer.py` and
`src/speech_recognition/speech_recognizer.py`).

The Python code is shallowly embedded: the NumPy-backed ring buffer becomes a
structure whose backing array is a function `Nat → α` (only indices below
`maxsize` are ever read), sample values become rationals (the only arithmetic
performed on samples by the embedded code paths — PCM conversion and the IEEE
binary32 decoding — is exact over ℚ), and the per-session pipeline state
machine becomes a state-passing step function.  The external VAD scorer
(a torch model loaded from torch.hub, outside this repository) is modelled as
a per-frame oracle outcome supplied as input: either a probability or a raised
exception.  Python exceptions are modelled with `Except`, where the error value
carries the state and emitted events at the moment of the raise, matching
Python's no-rollback semantics for `try`/`except`.
-/

set_option linter.unusedSectionVars false

-- Core marks the rational-arithmetic primitives `@[irreducible]`, which blocks
-- `decide` on concrete pipeline states even though the kernel reduces them
-- fine.  Restore the default reducibility so concrete runs evaluate.
set_option allowUnsafeReducibility true in
attribute [semireducible] Rat.mul Rat.div Rat.add Rat.inv Rat.sub Rat.neg

set_option maxRecDepth 8000
set_option synthInstance.maxSize 4096

/-- Python `int()` applied to a rational: truncation toward zero. -/
def pyInt (q : ℚ) : Int :=
  if 0 ≤ q then ⌊q⌋ else ⌈q⌉

/-- The last `n` elements of a list (all of it when `n ≥ length`). -/
def takeLast (n : Nat) (l : List α) : List α :=
  l.drop (l.length - n)

/-!
## NumPyRingBuffer (`numpy_ring_buffer.py`)

`buffer` models the backing NumPy array; `head` is the next write position,
`tail` the next read position, `count` the number of stored elements, exactly
as in the Python class.
-/

structure NumPyRingBuffer (α : Type) where
  maxsize : Nat
  buffer : Nat → α
  head : Nat
  tail : Nat
  count : Nat

variable {α : Type} [Inhabited α]

/-- A NumPy slice assignment `buf[start:start+len(data)] = data`. -/
def writeSlice (buf : Nat → α) (start : Nat) (data : List α) : Nat → α :=
  fun i => if start ≤ i ∧ i < start + data.length then data.getD (i - start) default else buf i

/-- A NumPy slice read `buf[start:start+n]`. -/
def readSlice (buf : Nat → α) (start n : Nat) : List α :=
  (List.range n).map (fun i => buf (start + i))

/-- `NumPyRingBuffer.__init__`: zeroed array, cursors at 0.  (The Python
constructor raises on `maxsize ≤ 0`; the claims below always carry
`0 < maxsize` through the invariant.) -/
def NumPyRingBuffer.new (maxsize : Nat) : NumPyRingBuffer α :=
  ⟨maxsize, fun _ => default, 0, 0, 0⟩

/-- `put_bulk(data)` from `numpy_ring_buffer.py` lines 47-90. -/
def NumPyRingBuffer.put_bulk (s : NumPyRingBuffer α) (data : List α) : NumPyRingBuffer α :=
  let n := data.length
  if n = 0 then s
  else if s.maxsize ≤ n then
    -- data at least the buffer size: keep only the trailing maxsize elements
    { s with buffer := fun i => (data.drop (n - s.maxsize)).getD i default,
             head := 0, tail := 0, count := s.maxsize }
  else
    let buf :=
      if s.head + n ≤ s.maxsize then
        writeSlice s.buffer s.head data
      else
        -- write wraps around the end of the array
        let split := s.maxsize - s.head
        writeSlice (writeSlice s.buffer s.head (data.take split)) 0 (data.drop split)
    if s.count + n ≤ s.maxsize then
      { s with buffer := buf, head := (s.head + n) % s.maxsize, count := s.count + n }
    else
      -- overflow: advance tail, dropping the oldest samples
      { s with buffer := buf, head := (s.head + n) % s.maxsize,
               tail := (s.tail + (s.count + n - s.maxsize)) % s.maxsize,
               count := s.maxsize }

/-- `get_bulk(n)` from `numpy_ring_buffer.py` lines 109-140: returns the
extracted array together with the updated buffer. -/
def NumPyRingBuffer.get_bulk (s : NumPyRingBuffer α) (n : Nat) :
    List α × NumPyRingBuffer α :=
  if s.count = 0 then ([], s)
  else
    let a := min n s.count
    let result :=
      if s.tail + a ≤ s.maxsize then
        readSlice s.buffer s.tail a
      else
        let split := s.maxsize - s.tail
        readSlice s.buffer s.tail split ++ readSlice s.buffer 0 (a - split)
    (result, { s with tail := (s.tail + a) % s.maxsize, count := s.count - a })

/-- `clear()`: reset the cursors (the backing array is not touched). -/
def NumPyRingBuffer.clear (s : NumPyRingBuffer α) : NumPyRingBuffer α :=
  { s with head := 0, tail := 0, count := 0 }

/-- `size()`. -/
def NumPyRingBuffer.size (s : NumPyRingBuffer α) : Nat := s.count

/-- Structural well-formedness maintained by every operation. -/
def NumPyRingBuffer.Inv (s : NumPyRingBuffer α) : Prop :=
  0 < s.maxsize ∧ s.count ≤ s.maxsize ∧ s.tail < s.maxsize ∧
    s.head = (s.tail + s.count) % s.maxsize

instance NumPyRingBuffer.instDecidableInv (s : NumPyRingBuffer α) : Decidable s.Inv :=
  inferInstanceAs (Decidable (0 < s.maxsize ∧ s.count ≤ s.maxsize ∧ s.tail < s.maxsize ∧
    s.head = (s.tail + s.count) % s.maxsize))

/-- The logical contents of the ring, oldest first. -/
def NumPyRingBuffer.contents (s : NumPyRingBuffer α) : List α :=
  (List.range s.count).map (fun i => s.buffer ((s.tail + i) % s.maxsize))

theorem NumPyRingBuffer.length_contents (s : NumPyRingBuffer α) :
    s.contents.length = s.count := by
  simp [NumPyRingBuffer.contents]

theorem NumPyRingBuffer.contents_getElem (s : NumPyRingBuffer α) {i : Nat}
    (h : i < s.contents.length) :
    s.contents[i] = s.buffer ((s.tail + i) % s.maxsize) := by
  simp [NumPyRingBuffer.contents]

theorem NumPyRingBuffer.Inv.new (m : Nat) (hm : 0 < m) :
    (NumPyRingBuffer.new (α := α) m).Inv := by
  refine ⟨hm, ?_, ?_, ?_⟩ <;> simp [NumPyRingBuffer.new, hm]

theorem NumPyRingBuffer.contents_new (m : Nat) :
    (NumPyRingBuffer.new (α := α) m).contents = [] := by
  simp [NumPyRingBuffer.new, NumPyRingBuffer.contents]

theorem NumPyRingBuffer.Inv.clear {s : NumPyRingBuffer α} (h : s.Inv) :
    s.clear.Inv := by
  refine ⟨h.1, ?_, h.1, ?_⟩ <;> simp [NumPyRingBuffer.clear]

theorem NumPyRingBuffer.contents_clear (s : NumPyRingBuffer α) :
    s.clear.contents = [] := by
  simp [NumPyRingBuffer.clear, NumPyRingBuffer.contents]

/-! ### Pointwise characterisation of `put_bulk`'s array writes -/

theorem writeSlice_inside (buf : Nat → α) (start : Nat) (data : List α) {i : Nat}
    (h1 : start ≤ i) (h2 : i < start + data.length) :
    writeSlice buf start data i = data.getD (i - start) default := by
  simp [writeSlice, h1, h2]

theorem writeSlice_outside (buf : Nat → α) (start : Nat) (data : List α) {i : Nat}
    (h : ¬ (start ≤ i ∧ i < start + data.length)) :
    writeSlice buf start data i = buf i := by
  simp only [writeSlice, if_neg h]

/-- Cancellation of a common offset under `% m` for reduced values. -/
theorem mod_cancel_lt {m t a b : Nat} (ha : a < m) (hb : b < m)
    (h : (t + a) % m = (t + b) % m) : a = b := by
  have h' : a ≡ b [MOD m] := Nat.ModEq.add_left_cancel' t h
  calc a = a % m := (Nat.mod_eq_of_lt ha).symm
    _ = b % m := h'
    _ = b := Nat.mod_eq_of_lt hb

theorem NumPyRingBuffer.head_lt {s : NumPyRingBuffer α} (h : s.Inv) : s.head < s.maxsize := by
  rw [h.2.2.2]; exact Nat.mod_lt _ h.1

/-- After a non-replacing `put_bulk`, the positions written modulo `maxsize`
starting at `head` hold the new data. -/
theorem NumPyRingBuffer.put_bulk_buffer_written {s : NumPyRingBuffer α} (h : s.Inv)
    {X : List α} (hX : X.length < s.maxsize) {j : Nat} (hj : j < X.length) :
    (s.put_bulk X).buffer ((s.head + j) % s.maxsize) = X[j] := by
  obtain ⟨hm, hcnt, ht, hh⟩ := h
  have hhead : s.head < s.maxsize := NumPyRingBuffer.head_lt ⟨hm, hcnt, ht, hh⟩
  have hn0 : X.length ≠ 0 := by omega
  have hbuf : (s.put_bulk X).buffer =
      (if s.head + X.length ≤ s.maxsize then writeSlice s.buffer s.head X
       else writeSlice (writeSlice s.buffer s.head (X.take (s.maxsize - s.head))) 0
         (X.drop (s.maxsize - s.head))) := by
    rw [NumPyRingBuffer.put_bulk]
    simp only [if_neg hn0, if_neg (by omega : ¬ s.maxsize ≤ X.length)]
    split <;> split <;> rfl
  rw [hbuf]
  by_cases hc : s.head + X.length ≤ s.maxsize
  · rw [if_pos hc, Nat.mod_eq_of_lt (by omega)]
    rw [writeSlice_inside _ _ _ (by omega) (by omega)]
    rw [List.getD_eq_getElem _ _ (by omega : s.head + j - s.head < X.length)]
    congr 1
    omega
  · rw [if_neg hc]
    by_cases hjs : j < s.maxsize - s.head
    · have hmod : (s.head + j) % s.maxsize = s.head + j := Nat.mod_eq_of_lt (by omega)
      rw [hmod]
      rw [writeSlice_outside _ _ _ (by
        simp only [List.length_drop, not_and, not_lt]
        omega)]
      rw [writeSlice_inside _ _ _ (by omega) (by
        simp only [List.length_take]
        omega)]
      rw [List.getD_eq_getElem _ _ (by simp only [List.length_take]; omega)]
      simp only [List.getElem_take]
      congr 1
      omega
    · have hmod : (s.head + j) % s.maxsize = j - (s.maxsize - s.head) := by
        have h1 : s.head + j = s.maxsize + (j - (s.maxsize - s.head)) := by omega
        rw [h1, Nat.add_mod_left, Nat.mod_eq_of_lt (by omega)]
      rw [hmod]
      rw [writeSlice_inside _ _ _ (by omega) (by
        simp only [List.length_drop]
        omega)]
      rw [List.getD_eq_getElem _ _ (by simp only [List.length_drop]; omega)]
      simp only [Nat.zero_add, List.getElem_drop]
      congr 1
      omega

/-- After a non-replacing `put_bulk`, all other positions are unchanged. -/
theorem NumPyRingBuffer.put_bulk_buffer_skipped {s : NumPyRingBuffer α} (h : s.Inv)
    {X : List α} (hX : X.length < s.maxsize) (hn0 : X.length ≠ 0) {p : Nat}
    (hp : p < s.maxsize)
    (hout : ∀ j, j < X.length → p ≠ (s.head + j) % s.maxsize) :
    (s.put_bulk X).buffer p = s.buffer p := by
  obtain ⟨hm, hcnt, ht, hh⟩ := h
  have hhead : s.head < s.maxsize := NumPyRingBuffer.head_lt ⟨hm, hcnt, ht, hh⟩
  have hbuf : (s.put_bulk X).buffer =
      (if s.head + X.length ≤ s.maxsize then writeSlice s.buffer s.head X
       else writeSlice (writeSlice s.buffer s.head (X.take (s.maxsize - s.head))) 0
         (X.drop (s.maxsize - s.head))) := by
    rw [NumPyRingBuffer.put_bulk]
    simp only [if_neg hn0, if_neg (by omega : ¬ s.maxsize ≤ X.length)]
    split <;> split <;> rfl
  rw [hbuf]
  by_cases hc : s.head + X.length ≤ s.maxsize
  · rw [if_pos hc]
    apply writeSlice_outside
    rintro ⟨h1, h2⟩
    exact hout (p - s.head) (by omega) (by rw [Nat.mod_eq_of_lt (by omega)]; omega)
  · rw [if_neg hc]
    rw [writeSlice_outside _ _ _ (by
      simp only [List.length_drop, not_and, not_lt]
      intro
      by_contra hlt
      push_neg at hlt
      exact hout (s.maxsize - s.head + p) (by omega) (by
        rw [show s.head + (s.maxsize - s.head + p) = s.maxsize + p by omega,
          Nat.add_mod_left, Nat.mod_eq_of_lt hp]))]
    apply writeSlice_outside
    rintro ⟨h1, h2⟩
    simp only [List.length_take] at h2
    exact hout (p - s.head) (by omega) (by rw [Nat.mod_eq_of_lt (by omega)]; omega)

theorem mod_cancel' {m t a b : Nat} (h : (t + a) % m = (t + b) % m) : a % m = b % m :=
  Nat.ModEq.add_left_cancel' t h

theorem NumPyRingBuffer.put_bulk_maxsize (s : NumPyRingBuffer α) (X : List α) :
    (s.put_bulk X).maxsize = s.maxsize := by
  simp only [NumPyRingBuffer.put_bulk]
  repeat' split
  all_goals rfl

theorem NumPyRingBuffer.put_bulk_fields_replace {s : NumPyRingBuffer α} {X : List α}
    (hn0 : X.length ≠ 0) (hge : s.maxsize ≤ X.length) :
    (s.put_bulk X).head = 0 ∧ (s.put_bulk X).tail = 0 ∧ (s.put_bulk X).count = s.maxsize ∧
      (s.put_bulk X).buffer = fun i => (X.drop (X.length - s.maxsize)).getD i default := by
  unfold NumPyRingBuffer.put_bulk
  simp only [if_neg hn0, if_pos hge]
  exact ⟨trivial, trivial, trivial, trivial⟩

theorem NumPyRingBuffer.put_bulk_fields_app {s : NumPyRingBuffer α} {X : List α}
    (hn0 : X.length ≠ 0) (hlt : ¬ s.maxsize ≤ X.length)
    (hof : s.count + X.length ≤ s.maxsize) :
    (s.put_bulk X).head = (s.head + X.length) % s.maxsize ∧ (s.put_bulk X).tail = s.tail ∧
      (s.put_bulk X).count = s.count + X.length := by
  unfold NumPyRingBuffer.put_bulk
  simp only [if_neg hn0, if_neg hlt, if_pos hof]
  exact ⟨trivial, trivial, trivial⟩

theorem NumPyRingBuffer.put_bulk_fields_over {s : NumPyRingBuffer α} {X : List α}
    (hn0 : X.length ≠ 0) (hlt : ¬ s.maxsize ≤ X.length)
    (hof : ¬ s.count + X.length ≤ s.maxsize) :
    (s.put_bulk X).head = (s.head + X.length) % s.maxsize ∧
      (s.put_bulk X).tail = (s.tail + (s.count + X.length - s.maxsize)) % s.maxsize ∧
      (s.put_bulk X).count = s.maxsize := by
  unfold NumPyRingBuffer.put_bulk
  simp only [if_neg hn0, if_neg hlt, if_neg hof]
  exact ⟨trivial, trivial, trivial⟩

/-- `put_bulk` preserves the structural invariant. -/
theorem NumPyRingBuffer.Inv.put_bulk {s : NumPyRingBuffer α} (h : s.Inv) (X : List α) :
    (s.put_bulk X).Inv := by
  obtain ⟨hm, hcnt, ht, hh⟩ := h
  have hms := s.put_bulk_maxsize X
  by_cases hn0 : X.length = 0
  · unfold NumPyRingBuffer.put_bulk
    simp only [if_pos hn0]
    exact ⟨hm, hcnt, ht, hh⟩
  by_cases hge : s.maxsize ≤ X.length
  · obtain ⟨h1, h2, h3, _⟩ := put_bulk_fields_replace hn0 hge
    exact ⟨hms ▸ hm, by omega, by omega, by rw [h1, h2, h3, hms]; simp⟩
  by_cases hof : s.count + X.length ≤ s.maxsize
  · obtain ⟨h1, h2, h3⟩ := put_bulk_fields_app hn0 hge hof
    refine ⟨hms ▸ hm, by omega, by omega, ?_⟩
    rw [h1, h2, h3, hms, hh, Nat.mod_add_mod, Nat.add_assoc]
  · obtain ⟨h1, h2, h3⟩ := put_bulk_fields_over hn0 hge hof
    refine ⟨hms ▸ hm, by omega, ?_, ?_⟩
    · rw [h2, hms]; exact Nat.mod_lt _ hm
    · rw [h1, h2, h3, hms, hh, Nat.mod_add_mod, Nat.mod_add_mod]
      congr 1
      omega

/-- `size()` after any `put_bulk` never exceeds `capacity`. -/
theorem NumPyRingBuffer.put_bulk_count_le {s : NumPyRingBuffer α}
    (h : s.count ≤ s.maxsize) (X : List α) : (s.put_bulk X).count ≤ s.maxsize := by
  by_cases hn0 : X.length = 0
  · unfold NumPyRingBuffer.put_bulk; simp only [if_pos hn0]; exact h
  by_cases hge : s.maxsize ≤ X.length
  · exact le_of_eq (put_bulk_fields_replace hn0 hge).2.2.1
  by_cases hof : s.count + X.length ≤ s.maxsize
  · rw [(put_bulk_fields_app hn0 hge hof).2.2]; exact hof
  · exact le_of_eq (put_bulk_fields_over hn0 hge hof).2.2

/-- The abstract effect of `put_bulk`: the ring holds the last `capacity`
elements of the old contents followed by the written data. -/
theorem NumPyRingBuffer.contents_put_bulk {s : NumPyRingBuffer α} (h : s.Inv) (X : List α) :
    (s.put_bulk X).contents = takeLast s.maxsize (s.contents ++ X) := by
  obtain ⟨hm, hcnt, ht, hh⟩ := h
  have hInv : s.Inv := ⟨hm, hcnt, ht, hh⟩
  have hms := s.put_bulk_maxsize X
  have hlenC : s.contents.length = s.count := s.length_contents
  by_cases hn0 : X.length = 0
  · have hX : X = [] := List.length_eq_zero.mp hn0
    have hid : s.put_bulk X = s := by
      rw [hX]
      simp [NumPyRingBuffer.put_bulk]
    rw [hid, hX, List.append_nil]
    unfold takeLast
    rw [hlenC, Nat.sub_eq_zero_of_le hcnt, List.drop_zero]
  by_cases hge : s.maxsize ≤ X.length
  · obtain ⟨h1, h2, h3, h4⟩ := put_bulk_fields_replace hn0 hge
    have hlen1 : (s.put_bulk X).contents.length = s.maxsize := by
      rw [NumPyRingBuffer.length_contents, h3]
    apply List.ext_getElem (by
      simp only [hlen1, takeLast, List.length_drop, List.length_append, hlenC]
      omega)
    intro i hi1 hi2
    have hi : i < s.maxsize := hlen1 ▸ hi1
    simp only [NumPyRingBuffer.contents, h2, h3, h4, hms, List.getElem_map,
      List.getElem_range, Nat.zero_add]
    rw [Nat.mod_eq_of_lt hi]
    rw [List.getD_eq_getElem _ _ (by simp only [List.length_drop]; omega)]
    simp only [takeLast, List.getElem_drop, List.length_append, hlenC]
    rw [List.getElem_append_right (by omega)]
    congr 1
    omega
  push_neg at hge
  by_cases hof : s.count + X.length ≤ s.maxsize
  · have hlt : ¬ s.maxsize ≤ X.length := by omega
    obtain ⟨h1, h2, h3⟩ := put_bulk_fields_app hn0 hlt hof
    have htL : takeLast s.maxsize (s.contents ++ X) = s.contents ++ X := by
      unfold takeLast
      rw [List.length_append, hlenC, Nat.sub_eq_zero_of_le (by omega), List.drop_zero]
    rw [htL]
    have hlen1 : (s.put_bulk X).contents.length = s.count + X.length := by
      rw [NumPyRingBuffer.length_contents, h3]
    apply List.ext_getElem (by simp only [hlen1, List.length_append, hlenC])
    intro i hi1 hi2
    have hi : i < s.count + X.length := hlen1 ▸ hi1
    rw [NumPyRingBuffer.contents_getElem _ hi1, h2, hms]
    by_cases hic : i < s.count
    · have hout : ∀ j, j < X.length → (s.tail + i) % s.maxsize ≠ (s.head + j) % s.maxsize := by
        intro j hj heq
        rw [hh, Nat.mod_add_mod, Nat.add_assoc] at heq
        have := mod_cancel_lt (by omega) (by omega) heq
        omega
      rw [NumPyRingBuffer.put_bulk_buffer_skipped hInv hge hn0 (Nat.mod_lt _ hm) hout]
      rw [List.getElem_append_left (by omega : i < s.contents.length)]
      rw [NumPyRingBuffer.contents_getElem _ (by omega)]
    · have hj : i - s.count < X.length := by omega
      have hpos : (s.tail + i) % s.maxsize = (s.head + (i - s.count)) % s.maxsize := by
        rw [hh, Nat.mod_add_mod, Nat.add_assoc]
        congr 2
        omega
      rw [hpos, NumPyRingBuffer.put_bulk_buffer_written hInv hge hj]
      rw [List.getElem_append_right (by omega : s.contents.length ≤ i)]
      congr 1
      omega
  · push_neg at hof
    have hlt : ¬ s.maxsize ≤ X.length := by omega
    have hofn : ¬ s.count + X.length ≤ s.maxsize := by omega
    obtain ⟨h1, h2, h3⟩ := put_bulk_fields_over hn0 hlt hofn
    have ho2 : s.count + X.length - s.maxsize ≤ s.count := by omega
    have htL : takeLast s.maxsize (s.contents ++ X)
        = s.contents.drop (s.count + X.length - s.maxsize) ++ X := by
      unfold takeLast
      rw [List.length_append, hlenC, List.drop_append_eq_append_drop, hlenC,
        Nat.sub_eq_zero_of_le ho2, List.drop_zero]
    rw [htL]
    have hlen1 : (s.put_bulk X).contents.length = s.maxsize := by
      rw [NumPyRingBuffer.length_contents, h3]
    apply List.ext_getElem (by
      simp only [hlen1, List.length_append, List.length_drop, hlenC]
      omega)
    intro i hi1 hi2
    have hi : i < s.maxsize := hlen1 ▸ hi1
    rw [NumPyRingBuffer.contents_getElem _ hi1, h2, hms]
    rw [Nat.mod_add_mod, Nat.add_assoc]
    by_cases hic : s.count + X.length - s.maxsize + i < s.count
    · have hout : ∀ j, j < X.length →
          (s.tail + (s.count + X.length - s.maxsize + i)) % s.maxsize
            ≠ (s.head + j) % s.maxsize := by
        intro j hj heq
        rw [hh, Nat.mod_add_mod, Nat.add_assoc] at heq
        have hmm := mod_cancel' heq
        rw [Nat.mod_eq_of_lt (by omega)] at hmm
        by_cases hcj : s.count + j < s.maxsize
        · rw [Nat.mod_eq_of_lt hcj] at hmm
          omega
        · rw [Nat.mod_eq_sub_mod (by omega), Nat.mod_eq_of_lt (by omega)] at hmm
          omega
      rw [NumPyRingBuffer.put_bulk_buffer_skipped hInv hge hn0 (Nat.mod_lt _ hm) hout]
      rw [List.getElem_append_left (by simp only [List.length_drop, hlenC]; omega)]
      simp only [List.getElem_drop]
      rw [NumPyRingBuffer.contents_getElem _ (by simp only [NumPyRingBuffer.length_contents]; omega)]
    · have hj : s.count + X.length - s.maxsize + i - s.count < X.length := by omega
      have hpos : (s.tail + (s.count + X.length - s.maxsize + i)) % s.maxsize
          = (s.head + (s.count + X.length - s.maxsize + i - s.count)) % s.maxsize := by
        rw [hh, Nat.mod_add_mod, Nat.add_assoc]
        congr 2
        omega
      rw [hpos, NumPyRingBuffer.put_bulk_buffer_written hInv hge hj]
      rw [List.getElem_append_right (by simp only [List.length_drop, hlenC]; omega)]
      congr 1
      simp only [List.length_drop, hlenC]
      omega

/-! ### `get_bulk` -/

theorem readSlice_length (buf : Nat → α) (start n : Nat) : (readSlice buf start n).length = n := by
  simp [readSlice]

theorem readSlice_getElem (buf : Nat → α) (start n : Nat) {i : Nat}
    (h : i < (readSlice buf start n).length) :
    (readSlice buf start n)[i] = buf (start + i) := by
  simp [readSlice]

theorem NumPyRingBuffer.contents_eq_nil {s : NumPyRingBuffer α} (h : s.count = 0) :
    s.contents = [] := by
  simp [NumPyRingBuffer.contents, h]

theorem NumPyRingBuffer.get_bulk_snd_maxsize (s : NumPyRingBuffer α) (n : Nat) :
    (s.get_bulk n).2.maxsize = s.maxsize := by
  simp only [NumPyRingBuffer.get_bulk]
  split <;> rfl

theorem NumPyRingBuffer.get_bulk_snd_buffer (s : NumPyRingBuffer α) (n : Nat) :
    (s.get_bulk n).2.buffer = s.buffer := by
  simp only [NumPyRingBuffer.get_bulk]
  split <;> rfl

theorem NumPyRingBuffer.get_bulk_snd_head (s : NumPyRingBuffer α) (n : Nat) :
    (s.get_bulk n).2.head = s.head := by
  simp only [NumPyRingBuffer.get_bulk]
  split <;> rfl

theorem NumPyRingBuffer.get_bulk_snd_tail {s : NumPyRingBuffer α} (h0 : ¬ s.count = 0)
    (n : Nat) : (s.get_bulk n).2.tail = (s.tail + min n s.count) % s.maxsize := by
  simp only [NumPyRingBuffer.get_bulk, if_neg h0]

theorem NumPyRingBuffer.get_bulk_snd_count {s : NumPyRingBuffer α} (h0 : ¬ s.count = 0)
    (n : Nat) : (s.get_bulk n).2.count = s.count - min n s.count := by
  simp only [NumPyRingBuffer.get_bulk, if_neg h0]

/-- `get_bulk(n)` consumes and returns the first `min(n, count)` stored samples. -/
theorem NumPyRingBuffer.get_bulk_fst {s : NumPyRingBuffer α} (h : s.Inv) (n : Nat) :
    (s.get_bulk n).1 = s.contents.take n := by
  obtain ⟨hm, hcnt, ht, hh⟩ := h
  by_cases h0 : s.count = 0
  · rw [NumPyRingBuffer.contents_eq_nil h0]
    simp [NumPyRingBuffer.get_bulk, h0]
  have hres : (s.get_bulk n).1 =
      (if s.tail + min n s.count ≤ s.maxsize then readSlice s.buffer s.tail (min n s.count)
       else readSlice s.buffer s.tail (s.maxsize - s.tail) ++
         readSlice s.buffer 0 (min n s.count - (s.maxsize - s.tail))) := by
    simp only [NumPyRingBuffer.get_bulk, if_neg h0]
  rw [hres]
  have hlen2 : (s.contents.take n).length = min n s.count := by
    simp [s.length_contents]
  by_cases hsp : s.tail + min n s.count ≤ s.maxsize
  · rw [if_pos hsp]
    apply List.ext_getElem (by rw [readSlice_length, hlen2])
    intro i hi1 hi2
    have hi : i < min n s.count := by rwa [readSlice_length] at hi1
    rw [readSlice_getElem _ _ _ hi1]
    rw [List.getElem_take, NumPyRingBuffer.contents_getElem _ (by simp [s.length_contents]; omega)]
    rw [Nat.mod_eq_of_lt (by omega)]
  · rw [if_neg hsp]
    apply List.ext_getElem (by
      simp only [List.length_append, readSlice_length, hlen2]
      omega)
    intro i hi1 hi2
    have hi : i < min n s.count := by
      simp only [List.length_append, readSlice_length] at hi1
      omega
    rw [List.getElem_take, NumPyRingBuffer.contents_getElem _ (by simp [s.length_contents]; omega)]
    by_cases hisp : i < s.maxsize - s.tail
    · rw [List.getElem_append_left (by rw [readSlice_length]; omega)]
      rw [readSlice_getElem _ _ _ (by rw [readSlice_length]; omega)]
      rw [Nat.mod_eq_of_lt (by omega)]
    · rw [List.getElem_append_right (by rw [readSlice_length]; omega)]
      rw [readSlice_getElem _ _ _ (by simp only [readSlice_length]; omega)]
      rw [Nat.mod_eq_sub_mod (by omega), Nat.mod_eq_of_lt (by omega)]
      congr 1
      simp only [readSlice_length]
      omega

/-- `get_bulk` preserves the structural invariant. -/
theorem NumPyRingBuffer.Inv.get_bulk {s : NumPyRingBuffer α} (h : s.Inv) (n : Nat) :
    (s.get_bulk n).2.Inv := by
  obtain ⟨hm, hcnt, ht, hh⟩ := h
  by_cases h0 : s.count = 0
  · simp only [NumPyRingBuffer.get_bulk, if_pos h0]
    exact ⟨hm, hcnt, ht, hh⟩
  · refine ⟨?_, ?_, ?_, ?_⟩
    · rw [s.get_bulk_snd_maxsize n]; exact hm
    · rw [s.get_bulk_snd_count h0 n, s.get_bulk_snd_maxsize n]; omega
    · rw [s.get_bulk_snd_tail h0 n, s.get_bulk_snd_maxsize n]; exact Nat.mod_lt _ hm
    · rw [s.get_bulk_snd_head n, s.get_bulk_snd_tail h0 n, s.get_bulk_snd_count h0 n,
        s.get_bulk_snd_maxsize n, hh, Nat.mod_add_mod]
      congr 1
      omega

/-- `get_bulk(n)` leaves exactly the remaining (dropped) contents behind. -/
theorem NumPyRingBuffer.get_bulk_snd_contents {s : NumPyRingBuffer α} (h : s.Inv) (n : Nat) :
    (s.get_bulk n).2.contents = s.contents.drop n := by
  obtain ⟨hm, hcnt, ht, hh⟩ := h
  by_cases h0 : s.count = 0
  · rw [NumPyRingBuffer.contents_eq_nil h0]
    simp only [NumPyRingBuffer.get_bulk, if_pos h0, List.drop_nil]
    exact NumPyRingBuffer.contents_eq_nil h0
  · apply List.ext_getElem (by
      simp only [NumPyRingBuffer.length_contents, List.length_drop,
        s.get_bulk_snd_count h0 n, s.length_contents]
      omega)
    intro i hi1 hi2
    have hi : i < s.count - min n s.count := by
      rwa [NumPyRingBuffer.length_contents, s.get_bulk_snd_count h0 n] at hi1
    have hn : min n s.count = n := by omega
    rw [NumPyRingBuffer.contents_getElem _ hi1, s.get_bulk_snd_buffer n,
      s.get_bulk_snd_tail h0 n, s.get_bulk_snd_maxsize n, Nat.mod_add_mod]
    rw [List.getElem_drop, NumPyRingBuffer.contents_getElem _ (by
      simp only [NumPyRingBuffer.length_contents]
      omega)]
    rw [hn, Nat.add_assoc]

/-!
## Payload decoding (`speech_recognizer.py`, `add_audio_chunk`, lines 130-157)

Payloads are byte lists.  `np.frombuffer(..., dtype=np.float32)` is embedded
as exact IEEE binary32 decoding into a value that is either a rational, a NaN
or an infinity; `np.frombuffer(..., dtype=np.int16)` as exact little-endian
16-bit signed decoding.  Both are bit-exact over ℚ.
-/

inductive F32Val where
  | finite (q : ℚ)
  | nan
  | inf (neg : Bool)
deriving DecidableEq, Repr

/-- Decode one IEEE-754 binary32 word. -/
def f32_of_word (w : Nat) : F32Val :=
  let sign : Nat := w / 2 ^ 31 % 2
  let e : Nat := w / 2 ^ 23 % 2 ^ 8
  let m : Nat := w % 2 ^ 23
  if e = 255 then
    if m = 0 then F32Val.inf (sign = 1) else F32Val.nan
  else
    let sgn : ℚ := if sign = 1 then -1 else 1
    if e = 0 then F32Val.finite (sgn * (m : ℚ) / 2 ^ 149)
    else F32Val.finite (sgn * (((2 ^ 23 + m) * 2 ^ e : Nat) : ℚ) / 2 ^ 150)

/-- `np.frombuffer(data, dtype=np.float32)` on little-endian bytes (whole
4-byte words only; `add_audio_chunk` only uses it when `len % 4 == 0`). -/
def decode_float32 : List Nat → List F32Val
  | b0 :: b1 :: b2 :: b3 :: rest =>
      f32_of_word (b0 + 256 * (b1 + 256 * (b2 + 256 * b3))) :: decode_float32 rest
  | _ => []

/-- `np.abs(v) <= bound` in NumPy semantics: false on NaN and infinities.
For a finite value, `|q| ≤ bound` is phrased as the two-sided comparison so
that it evaluates by kernel reduction. -/
def f32_abs_le (v : F32Val) (bound : ℚ) : Bool :=
  match v with
  | F32Val.finite q => decide (-bound ≤ q) && decide (q ≤ bound)
  | F32Val.nan => false
  | F32Val.inf _ => false

/-- The rational value of a decoded float32 (only used on the accepted path,
where every value is finite). -/
def f32_toRat : F32Val → ℚ
  | F32Val.finite q => q
  | _ => 0

/-- `np.frombuffer(data, dtype=np.int16).astype(np.float32) / 32768.0` on
little-endian bytes (exact: every int16/32768 is a binary32 value). -/
def decode_pcm16 : List Nat → List ℚ
  | b0 :: b1 :: rest =>
      (((if b0 + 256 * b1 < 32768 then (b0 + 256 * b1 : Int)
         else (b0 + 256 * b1 : Int) - 65536) : ℚ) / 32768) :: decode_pcm16 rest
  | _ => []

/-!
## The session pipeline (`speech_recognizer.py`, class SpeechRecognizer)
-/

/-- The outcome of one call into the external VAD scorer: a probability, or a
raised exception.  The scorer is a torch-hub model outside this repository, so
runs are quantified over arbitrary outcome sequences. -/
def VadOutcome := Except Unit ℚ

/-- `SpeechRecognizer.State` (the event discriminator enum). -/
inductive SRState where
  | SPEECH_START
  | SPEECH_END
  | RECOGNITION_RESULT
deriving DecidableEq, Repr

/-- Observable actions of one ingest call, in program order: a frame handed to
the VAD scorer, a successful event callback, or a `recognize_async` dispatch. -/
inductive TraceEntry where
  | scored (frame : List ℚ)
  | notified (st : SRState) (sid : Option Nat) (buffer_size : Nat)
  | dispatched (sid : Option Nat) (samples : List ℚ) (hint : Option String)
deriving DecidableEq, Repr

/-- A Python value passed to the `prompt` setter: a string or not a string. -/
inductive PyStr where
  | str (s : String)
  | nonstr
deriving DecidableEq, Repr

/-- Configuration snapshot (`vad_config.py` attributes used by the pipeline). -/
structure VADConfig where
  threshold : ℚ
  min_speech_duration_ms : ℚ
  max_speech_duration_s : ℚ
  prefix_speech_pad_ms : ℚ
  silence_duration_ms : ℚ
  chunk_size : Nat

/-- Per-session state, mirroring `SpeechRecognizer.__init__`.  `speech_id`
generation (`uuid.uuid4()`) is modelled by the `next_id` counter, so fresh ids
are distinct.  `callback_is_coroutine` records
`inspect.iscoroutinefunction(self._callback)`, fixed at construction. -/
structure SpeechRecognizer where
  sample_rate : Nat
  chunk_size : Nat
  min_speech_duration_s : ℚ
  max_speech_duration_s : ℚ
  prefix_speech_pad_s : ℚ
  silence_duration_frames : Int
  threshold : ℚ
  audio_buffer : NumPyRingBuffer ℚ
  chunk_buffer : NumPyRingBuffer ℚ
  silence_counter : Nat
  speech_start_index : Int
  speech_id : Option Nat
  next_id : Nat
  prompt : Option String
  callback_is_coroutine : Bool

/-- `SpeechRecognizer.__init__` (lines 76-98); `sample_rate` is hard-coded to
16000 there. -/
def SpeechRecognizer.init (cfg : VADConfig) (coroutine : Bool) : SpeechRecognizer :=
  { sample_rate := 16000
    chunk_size := cfg.chunk_size
    min_speech_duration_s := cfg.min_speech_duration_ms / 1000
    max_speech_duration_s := cfg.max_speech_duration_s
    prefix_speech_pad_s := cfg.prefix_speech_pad_ms / 1000
    silence_duration_frames :=
      pyInt (((16000 : ℚ) * cfg.silence_duration_ms) / ((cfg.chunk_size : ℚ) * 1000))
    threshold := cfg.threshold
    audio_buffer := NumPyRingBuffer.new
      (pyInt ((16000 : ℚ) * (cfg.max_speech_duration_s + cfg.prefix_speech_pad_ms / 1000 +
        cfg.silence_duration_ms / 1000))).toNat
    chunk_buffer := NumPyRingBuffer.new cfg.chunk_size
    silence_counter := 0
    speech_start_index := -1
    speech_id := none
    next_id := 0
    prompt := none
    callback_is_coroutine := coroutine }

/-- The `prompt` property setter (lines 121-128).  In the source,
`self._prompt = value` sits inside the `elif not isinstance(value, str)`
branch only, so a string argument (empty or not) never assigns `_prompt`. -/
def SpeechRecognizer.set_prompt (r : SpeechRecognizer) (value : PyStr) : SpeechRecognizer :=
  match value with
  | PyStr.str _ => r
  | PyStr.nonstr => { r with prompt := none }

/-- `_notify(state)` (lines 160-165).  For a coroutine callback, the event is
scheduled with the current `speech_id` and `audio_buffer.size()`.  For a plain
function, evaluating the argument `self._audio_buffe.size()` raises
`AttributeError` (the attribute name is misspelled), before the callback is
invoked. -/
def SpeechRecognizer.notify (r : SpeechRecognizer) (st : SRState) : Except Unit TraceEntry :=
  if r.callback_is_coroutine then
    Except.ok (TraceEntry.notified st r.speech_id r.audio_buffer.size)
  else
    Except.error ()

/-- `_trigger_recognition(speech_array)` (lines 243-283).  Returns the
dispatch record if `recognize_async` is called (the whisper processor itself
lives outside the embedded pipeline; only the call and its arguments are
observable here). -/
def SpeechRecognizer.trigger_recognition (r : SpeechRecognizer) (speech_array : List ℚ) :
    List TraceEntry :=
  if speech_array.length = 0 then []
  else
    let min_length : ℚ := (r.sample_rate : ℚ) * r.min_speech_duration_s
    if (speech_array.length : ℚ) < min_length then []
    else
      let max_length : ℚ := (r.sample_rate : ℚ) * r.max_speech_duration_s
      let arr :=
        if max_length < (speech_array.length : ℚ) then
          speech_array.take (pyInt max_length).toNat
        else speech_array
      [TraceEntry.dispatched r.speech_id arr r.prompt]

/-- `_process_audio_chunk(audio_chunk)` (lines 192-240), with the VAD outcome
supplied as input.  The whole body sits in a `try`/`except` that logs and
swallows any exception, so an error from the scorer or from `_notify` leaves
the state exactly as it was at the moment of the raise. -/
def SpeechRecognizer.process_audio_chunk (r : SpeechRecognizer) (audio_chunk : List ℚ)
    (vad : VadOutcome) : SpeechRecognizer × List TraceEntry :=
  let es0 := [TraceEntry.scored audio_chunk]
  match vad with
  | Except.error _ => (r, es0)
  | Except.ok speech_prob =>
    if r.threshold < speech_prob then
      if r.speech_start_index < 0 then
        let r1 := { r with
          speech_id := some r.next_id
          next_id := r.next_id + 1
          speech_start_index :=
            max 0 ((r.audio_buffer.size : Int) -
              pyInt ((r.sample_rate : ℚ) * r.prefix_speech_pad_s)) }
        match r1.notify SRState.SPEECH_START with
        | Except.error _ => (r1, es0)
        | Except.ok e => ({ r1 with silence_counter := 0 }, es0 ++ [e])
      else
        ({ r with silence_counter := 0 }, es0)
    else
      if 0 ≤ r.speech_start_index then
        let cnt := r.silence_counter + 1
        if r.silence_duration_frames ≤ (cnt : Int) then
          let g1 := r.audio_buffer.get_bulk r.speech_start_index.toNat
          let g2 := g1.2.get_bulk g1.2.size
          let des := r.trigger_recognition g2.1
          let r2 := { r with
            silence_counter := 0
            audio_buffer := g2.2.clear
            speech_start_index := -1
            chunk_buffer := r.chunk_buffer.clear }
          match r2.notify SRState.SPEECH_END with
          | Except.error _ => (r2, es0 ++ des)
          | Except.ok e => ({ r2 with speech_id := none }, es0 ++ des ++ [e])
        else
          ({ r with silence_counter := cnt }, es0)
      else
        (r, es0)

/-- The `while remain >= self._chunk_size` loop of `_process_audio`
(lines 179-185), on explicit fuel so that it is structurally recursive (each
iteration consumes at least one sample; `arr.length` fuel suffices). -/
def SpeechRecognizer.chunk_loop_fuel :
    Nat → Nat → SpeechRecognizer → List ℚ → List VadOutcome →
      SpeechRecognizer × List TraceEntry × List VadOutcome × List ℚ
  | 0, _, r, arr, vads => (r, [], vads, arr)
  | fuel + 1, cs, r, arr, vads =>
    if 0 < cs ∧ cs ≤ arr.length then
      let step := r.process_audio_chunk (arr.take cs) (vads.headD (Except.error ()))
      let rest := SpeechRecognizer.chunk_loop_fuel fuel cs step.1 (arr.drop cs) vads.tail
      (rest.1, step.2 ++ rest.2.1, rest.2.2.1, rest.2.2.2)
    else (r, [], vads, arr)

/-- The `while remain >= self._chunk_size` loop of `_process_audio`
(lines 179-185).  `cs` is `self._chunk_size`, which no step modifies; each
frame consumes the next VAD outcome.  Returns the final state, the emitted
entries, the unconsumed outcomes and the remaining samples. -/
def SpeechRecognizer.chunk_loop (cs : Nat) (r : SpeechRecognizer) (arr : List ℚ)
    (vads : List VadOutcome) :
    SpeechRecognizer × List TraceEntry × List VadOutcome × List ℚ :=
  SpeechRecognizer.chunk_loop_fuel arr.length cs r arr vads

theorem SpeechRecognizer.chunk_loop_fuel_congr :
    ∀ (f1 f2 : Nat) (cs : Nat) (r : SpeechRecognizer) (arr : List ℚ)
      (vads : List VadOutcome), arr.length ≤ f1 → arr.length ≤ f2 →
      SpeechRecognizer.chunk_loop_fuel f1 cs r arr vads
        = SpeechRecognizer.chunk_loop_fuel f2 cs r arr vads := by
  intro f1
  induction f1 with
  | zero =>
    intro f2 cs r arr vads h1 h2
    have harr : arr.length = 0 := by omega
    cases f2 with
    | zero => rfl
    | succ f2 =>
      show _ = if 0 < cs ∧ cs ≤ arr.length then _ else _
      rw [if_neg (by omega)]
      rfl
  | succ f1 ih =>
    intro f2 cs r arr vads h1 h2
    cases f2 with
    | zero =>
      have harr : arr.length = 0 := by omega
      show (if 0 < cs ∧ cs ≤ arr.length then _ else _) = _
      rw [if_neg (by omega)]
      rfl
    | succ f2 =>
      show (if 0 < cs ∧ cs ≤ arr.length then _ else _)
        = if 0 < cs ∧ cs ≤ arr.length then _ else _
      by_cases hc : 0 < cs ∧ cs ≤ arr.length
      · rw [if_pos hc, if_pos hc]
        have := ih f2 cs
          (r.process_audio_chunk (arr.take cs) (vads.headD (Except.error ()))).1
          (arr.drop cs) vads.tail (by simp only [List.length_drop]; omega)
          (by simp only [List.length_drop]; omega)
        dsimp only
        rw [this]
      · rw [if_neg hc, if_neg hc]

/-- The loop's defining equation, in the shape of the Python `while` loop. -/
theorem SpeechRecognizer.chunk_loop_eq (cs : Nat) (r : SpeechRecognizer) (arr : List ℚ)
    (vads : List VadOutcome) :
    SpeechRecognizer.chunk_loop cs r arr vads =
      if h : 0 < cs ∧ cs ≤ arr.length then
        let step := r.process_audio_chunk (arr.take cs) (vads.headD (Except.error ()))
        let rest := SpeechRecognizer.chunk_loop cs step.1 (arr.drop cs) vads.tail
        (rest.1, step.2 ++ rest.2.1, rest.2.2.1, rest.2.2.2)
      else (r, [], vads, arr) := by
  by_cases hc : 0 < cs ∧ cs ≤ arr.length
  · rw [dif_pos hc]
    unfold SpeechRecognizer.chunk_loop
    obtain ⟨n, hn⟩ : ∃ n, arr.length = n + 1 := ⟨arr.length - 1, by omega⟩
    rw [hn]
    show (if 0 < cs ∧ cs ≤ arr.length then _ else _) = _
    rw [if_pos hc]
    have := SpeechRecognizer.chunk_loop_fuel_congr n (arr.drop cs).length cs
      (r.process_audio_chunk (arr.take cs) (vads.headD (Except.error ()))).1
      (arr.drop cs) vads.tail (by simp only [List.length_drop]; omega) le_rfl
    dsimp only
    rw [this]
  · rw [dif_neg hc]
    unfold SpeechRecognizer.chunk_loop
    cases harr : arr.length with
    | zero => rfl
    | succ n =>
      show (if 0 < cs ∧ cs ≤ arr.length then _ else _) = _
      rw [if_neg hc]

/-- `_process_audio(audio_array)` (lines 168-189): prepend the residual from
`chunk_buffer`, slice into `chunk_size` frames, store the remainder back.
(The `_vad_model` guard is taken as loaded: with no model the pipeline is
inert.) -/
def SpeechRecognizer.process_audio (r : SpeechRecognizer) (audio_array : List ℚ)
    (vads : List VadOutcome) : SpeechRecognizer × List TraceEntry :=
  if audio_array.length = 0 then (r, [])
  else
    let count := r.chunk_buffer.size
    let pre :=
      if 0 < count then
        let g := r.chunk_buffer.get_bulk count
        (g.1 ++ audio_array, { r with chunk_buffer := g.2.clear })
      else (audio_array, r)
    let lp := SpeechRecognizer.chunk_loop pre.2.chunk_size pre.2 pre.1 vads
    if 0 < lp.2.2.2.length then
      ({ lp.1 with chunk_buffer := lp.1.chunk_buffer.put_bulk lp.2.2.2 }, lp.2.1)
    else (lp.1, lp.2.1)

/-- `add_audio_chunk(audio_data)`, 16-bit PCM path (lines 149-157).  For an
odd byte count `np.frombuffer(..., np.int16)` raises `ValueError`, which
propagates to the caller: modelled as `none`. -/
def SpeechRecognizer.add_pcm (r : SpeechRecognizer) (audio_data : List Nat)
    (vads : List VadOutcome) : Option (SpeechRecognizer × List TraceEntry) :=
  if audio_data.length % 2 = 0 then
    let float32_array := decode_pcm16 audio_data
    some (SpeechRecognizer.process_audio
      { r with audio_buffer := r.audio_buffer.put_bulk float32_array } float32_array vads)
  else none

/-- `add_audio_chunk(audio_data)` (lines 130-157): float32 when the byte count
is a multiple of 4 and every decoded value has `|x| ≤ 1.5`, else 16-bit PCM. -/
def SpeechRecognizer.add_audio_chunk (r : SpeechRecognizer) (audio_data : List Nat)
    (vads : List VadOutcome) : Option (SpeechRecognizer × List TraceEntry) :=
  if audio_data.length % 4 = 0 ∧
      (decode_float32 audio_data).all (fun v => f32_abs_le v (3 / 2)) = true then
    let float32_array := (decode_float32 audio_data).map f32_toRat
    some (SpeechRecognizer.process_audio
      { r with audio_buffer := r.audio_buffer.put_bulk float32_array } float32_array vads)
  else
    r.add_pcm audio_data vads

/-- A session run over byte payloads, each with its VAD outcome sequence.
`none` models an uncaught exception escaping `add_audio_chunk`. -/
def SpeechRecognizer.run (r : SpeechRecognizer) :
    List (List Nat × List VadOutcome) → Option (SpeechRecognizer × List TraceEntry)
  | [] => some (r, [])
  | (p, vs) :: rest =>
    match r.add_audio_chunk p vs with
    | none => none
    | some (r1, es) =>
      match r1.run rest with
      | none => none
      | some (r2, es2) => some (r2, es ++ es2)

/-- A run over already-decoded sample arrays (successive `_process_audio`
calls), used for the framing analysis. -/
def SpeechRecognizer.run_samples (r : SpeechRecognizer) :
    List (List ℚ × List VadOutcome) → SpeechRecognizer × List TraceEntry
  | [] => (r, [])
  | (d, vs) :: rest =>
    let step := r.process_audio d vs
    let next := step.1.run_samples rest
    (next.1, step.2 ++ next.2)

/-- The frames handed to the VAD scorer, in order. -/
def scoredFrames (tr : List TraceEntry) : List (List ℚ) :=
  tr.filterMap (fun e =>
    match e with
    | TraceEntry.scored f => some f
    | _ => none)

/-- Spec-side framing: consecutive non-overlapping `cs`-sample frames. -/
def chunksOf (cs : Nat) (l : List ℚ) : List (List ℚ) :=
  if h : 0 < cs ∧ cs ≤ l.length then l.take cs :: chunksOf cs (l.drop cs)
  else []
termination_by l.length
decreasing_by simp only [List.length_drop]; omega

/-- Spec-side framing remainder: the trailing `< cs` samples. -/
def chunksRem (cs : Nat) (l : List ℚ) : List ℚ :=
  if h : 0 < cs ∧ cs ≤ l.length then chunksRem cs (l.drop cs)
  else l
termination_by l.length
decreasing_by simp only [List.length_drop]; omega

/-!
## Claim C2 — RingBuffer put/get round trip

The claim's `min(|X|, capacity)` bound is refuted when prior contents remain
(`C2_ring_counterexample`); the correct bound is `min(|P| + |X|, capacity)`
where `P` is the prior remaining contents (`C2_ring_roundtrip`).
-/

/-- A capacity-2 buffer already holding one sample. -/
def rbEx0 : NumPyRingBuffer ℚ := (NumPyRingBuffer.new 2).put_bulk [1]

/-- C2, as stated, is false: with prior remaining contents `[1]` in a
capacity-2 ring, `put_bulk [2]` then `get_bulk (size)` returns `[1, 2]`, not
the last `min(|X|, capacity) = 1` elements of `[1] ++ [2]`. -/
theorem C2_ring_counterexample :
    ((rbEx0.put_bulk [2]).get_bulk (rbEx0.put_bulk [2]).size).1
      ≠ takeLast (min ([2] : List ℚ).length rbEx0.maxsize) (rbEx0.contents ++ [2]) := by
  decide

/-- C2 (amended): for every well-formed ring state with remaining contents `P`
and every `X`, `put_bulk X` then `get_bulk (size)` returns the last
`min(|P| + |X|, capacity)` elements of `P ++ X`; `size` never exceeds
`capacity` after `put_bulk`; and a write with `|X| ≥ capacity` replaces the
contents with the trailing `capacity` samples of `X`, resetting
`head = tail = 0` and `count = capacity`. -/
theorem C2_ring_roundtrip {s : NumPyRingBuffer ℚ} (h : s.Inv) (X : List ℚ) :
    ((s.put_bulk X).get_bulk (s.put_bulk X).size).1
        = takeLast (min (s.contents.length + X.length) s.maxsize) (s.contents ++ X)
      ∧ (s.put_bulk X).size ≤ s.maxsize
      ∧ (s.maxsize ≤ X.length →
          (s.put_bulk X).head = 0 ∧ (s.put_bulk X).tail = 0 ∧
            (s.put_bulk X).count = s.maxsize ∧
            (s.put_bulk X).contents = takeLast s.maxsize X) := by
  have hInv' : (s.put_bulk X).Inv := h.put_bulk X
  refine ⟨?_, ?_, ?_⟩
  · rw [NumPyRingBuffer.get_bulk_fst hInv']
    show (s.put_bulk X).contents.take (s.put_bulk X).count = _
    rw [← (s.put_bulk X).length_contents, List.take_length,
      NumPyRingBuffer.contents_put_bulk h]
    unfold takeLast
    congr 1
    simp only [List.length_append]
    omega
  · exact NumPyRingBuffer.put_bulk_count_le h.2.1 X
  · intro hge
    have hn0 : X.length ≠ 0 := by
      have := h.1
      omega
    obtain ⟨h1, h2, h3, _⟩ := NumPyRingBuffer.put_bulk_fields_replace hn0 hge
    refine ⟨h1, h2, h3, ?_⟩
    rw [NumPyRingBuffer.contents_put_bulk h]
    unfold takeLast
    rw [List.drop_append_eq_append_drop,
      List.drop_eq_nil_of_le (by simp [s.length_contents]; omega), List.nil_append]
    congr 1
    simp only [List.length_append, s.length_contents]
    omega

/-- Witness for `C2_ring_roundtrip` at a concrete well-formed state. -/
theorem C2_ring_roundtrip_witness :
    rbEx0.Inv ∧
      ((rbEx0.put_bulk [2, 3, 4]).get_bulk (rbEx0.put_bulk [2, 3, 4]).size).1
          = takeLast (min (rbEx0.contents.length + ([2, 3, 4] : List ℚ).length)
              rbEx0.maxsize) (rbEx0.contents ++ [2, 3, 4])
        ∧ (rbEx0.put_bulk [2, 3, 4]).size ≤ rbEx0.maxsize
        ∧ (rbEx0.maxsize ≤ ([2, 3, 4] : List ℚ).length →
            (rbEx0.put_bulk [2, 3, 4]).head = 0 ∧ (rbEx0.put_bulk [2, 3, 4]).tail = 0 ∧
              (rbEx0.put_bulk [2, 3, 4]).count = rbEx0.maxsize ∧
              (rbEx0.put_bulk [2, 3, 4]).contents = takeLast rbEx0.maxsize [2, 3, 4]) :=
  ⟨by decide, C2_ring_roundtrip (by decide) [2, 3, 4]⟩

/-!
## Per-step facts about `_process_audio_chunk`
-/

/-- Configuration fields are never modified by pipeline steps. -/
def cfgEq (r r' : SpeechRecognizer) : Prop :=
  r'.sample_rate = r.sample_rate ∧ r'.chunk_size = r.chunk_size ∧
    r'.min_speech_duration_s = r.min_speech_duration_s ∧
    r'.max_speech_duration_s = r.max_speech_duration_s ∧
    r'.prefix_speech_pad_s = r.prefix_speech_pad_s ∧
    r'.silence_duration_frames = r.silence_duration_frames ∧
    r'.threshold = r.threshold ∧
    r'.callback_is_coroutine = r.callback_is_coroutine

theorem cfgEq_refl (r : SpeechRecognizer) : cfgEq r r :=
  ⟨rfl, rfl, rfl, rfl, rfl, rfl, rfl, rfl⟩

theorem cfgEq_trans {r1 r2 r3 : SpeechRecognizer} (h1 : cfgEq r1 r2) (h2 : cfgEq r2 r3) :
    cfgEq r1 r3 := by
  obtain ⟨a1, a2, a3, a4, a5, a6, a7, a8⟩ := h1
  obtain ⟨b1, b2, b3, b4, b5, b6, b7, b8⟩ := h2
  exact ⟨b1.trans a1, b2.trans a2, b3.trans a3, b4.trans a4, b5.trans a5, b6.trans a6,
    b7.trans a7, b8.trans a8⟩

/-- One chunk step: config fields unchanged, chunk buffer unchanged or cleared,
prompt unchanged. -/
theorem SpeechRecognizer.process_audio_chunk_cfg (r : SpeechRecognizer) (c : List ℚ)
    (v : VadOutcome) :
    cfgEq r (r.process_audio_chunk c v).1 ∧
      ((r.process_audio_chunk c v).1.chunk_buffer = r.chunk_buffer ∨
        (r.process_audio_chunk c v).1.chunk_buffer = r.chunk_buffer.clear) ∧
      (r.process_audio_chunk c v).1.prompt = r.prompt := by
  unfold SpeechRecognizer.process_audio_chunk SpeechRecognizer.notify
  rcases v with e | p
  · exact ⟨cfgEq_refl r, Or.inl rfl, rfl⟩
  · dsimp only
    repeat' split
    all_goals
      exact ⟨⟨rfl, rfl, rfl, rfl, rfl, rfl, rfl, rfl⟩,
        by first | exact Or.inl rfl | exact Or.inr rfl, rfl⟩

/-- `_trigger_recognition` emits only dispatch records, never scored frames. -/
theorem SpeechRecognizer.trigger_recognition_scored (r : SpeechRecognizer) (sa : List ℚ) :
    scoredFrames (r.trigger_recognition sa) = [] := by
  unfold SpeechRecognizer.trigger_recognition
  repeat' split
  all_goals simp [scoredFrames]

theorem scoredFrames_append (a b : List TraceEntry) :
    scoredFrames (a ++ b) = scoredFrames a ++ scoredFrames b := by
  simp [scoredFrames]

/-- Every chunk step hands exactly its frame to the VAD scorer. -/
theorem SpeechRecognizer.process_audio_chunk_scored (r : SpeechRecognizer) (c : List ℚ)
    (v : VadOutcome) :
    scoredFrames (r.process_audio_chunk c v).2 = [c] := by
  have htrig := fun sa => r.trigger_recognition_scored sa
  have htrig' : ∀ (sa : List ℚ), ∀ a ∈ r.trigger_recognition sa,
      (match a with
        | TraceEntry.scored f => some f
        | _ => none) = (none : Option (List ℚ)) := by
    intro sa
    have h := r.trigger_recognition_scored sa
    unfold scoredFrames at h
    exact List.filterMap_eq_nil.mp h
  unfold SpeechRecognizer.process_audio_chunk SpeechRecognizer.notify
  rcases v with e | p
  · simp [scoredFrames]
  · dsimp only
    by_cases hcb : r.callback_is_coroutine = true
    · simp only [if_pos hcb]
      repeat' split
      all_goals simp [scoredFrames_append, htrig, scoredFrames]
      all_goals exact htrig' _
    · simp only [if_neg hcb]
      repeat' split
      all_goals simp [scoredFrames_append, htrig, scoredFrames]
      all_goals exact htrig' _

/-! ## Framing: `chunksOf`/`chunksRem` facts and the `_process_audio` loop -/

theorem chunksRem_length (cs : Nat) (h : 0 < cs) (l : List ℚ) :
    (chunksRem cs l).length = l.length % cs := by
  have key : ∀ (n : Nat) (l : List ℚ), l.length ≤ n →
      (chunksRem cs l).length = l.length % cs := by
    intro n
    induction n with
    | zero =>
      intro l hl
      rw [chunksRem, dif_neg (by omega)]
      rw [Nat.mod_eq_of_lt (by omega)]
    | succ n ih =>
      intro l hl
      rw [chunksRem]
      by_cases hc : cs ≤ l.length
      · rw [dif_pos ⟨h, hc⟩, ih (l.drop cs) (by simp only [List.length_drop]; omega)]
        simp only [List.length_drop]
        exact (Nat.mod_eq_sub_mod hc).symm
      · rw [dif_neg (by omega)]
        rw [Nat.mod_eq_of_lt (by omega)]
  exact key l.length l le_rfl

theorem chunksOf_length (cs : Nat) (h : 0 < cs) (l : List ℚ) :
    (chunksOf cs l).length = l.length / cs := by
  have key : ∀ (n : Nat) (l : List ℚ), l.length ≤ n →
      (chunksOf cs l).length = l.length / cs := by
    intro n
    induction n with
    | zero =>
      intro l hl
      rw [chunksOf, dif_neg (by omega)]
      simp only [List.length_nil]
      rw [Nat.div_eq_of_lt (by omega)]
    | succ n ih =>
      intro l hl
      rw [chunksOf]
      by_cases hc : cs ≤ l.length
      · rw [dif_pos ⟨h, hc⟩]
        simp only [List.length_cons, ih (l.drop cs) (by simp only [List.length_drop]; omega),
          List.length_drop]
        rw [Nat.div_eq_sub_div h hc]
      · rw [dif_neg (by omega)]
        simp only [List.length_nil]
        rw [Nat.div_eq_of_lt (by omega)]
  exact key l.length l le_rfl

theorem chunksOf_mem_length (cs : Nat) (h : 0 < cs) (l : List ℚ) :
    ∀ f ∈ chunksOf cs l, f.length = cs := by
  have key : ∀ (n : Nat) (l : List ℚ), l.length ≤ n →
      ∀ f ∈ chunksOf cs l, f.length = cs := by
    intro n
    induction n with
    | zero =>
      intro l hl f hf
      rw [chunksOf, dif_neg (by omega)] at hf
      simp at hf
    | succ n ih =>
      intro l hl f hf
      rw [chunksOf] at hf
      by_cases hc : cs ≤ l.length
      · rw [dif_pos ⟨h, hc⟩] at hf
        rcases List.mem_cons.mp hf with hf | hf
        · subst hf
          simp only [List.length_take]
          omega
        · exact ih (l.drop cs) (by simp only [List.length_drop]; omega) f hf
      · rw [dif_neg (by omega)] at hf
        simp at hf
  exact key l.length l le_rfl

theorem chunksOf_append (cs : Nat) (h : 0 < cs) (a b : List ℚ) :
    chunksOf cs (a ++ b) = chunksOf cs a ++ chunksOf cs (chunksRem cs a ++ b) := by
  have key : ∀ (n : Nat) (a b : List ℚ), a.length ≤ n →
      chunksOf cs (a ++ b) = chunksOf cs a ++ chunksOf cs (chunksRem cs a ++ b) := by
    intro n
    induction n with
    | zero =>
      intro a b ha
      have ha0 : a = [] := List.eq_nil_of_length_eq_zero (by omega)
      subst ha0
      have h1 : chunksOf cs ([] : List ℚ) = [] := by
        rw [chunksOf, dif_neg (by simp only [List.length_nil]; omega)]
      have h2 : chunksRem cs ([] : List ℚ) = [] := by
        rw [chunksRem, dif_neg (by simp only [List.length_nil]; omega)]
      rw [h1, h2]
      simp
    | succ n ih =>
      intro a b ha
      by_cases hc : cs ≤ a.length
      · rw [chunksRem, dif_pos ⟨h, hc⟩]
        conv_lhs => rw [chunksOf, dif_pos ⟨h, by simp only [List.length_append]; omega⟩]
        conv_rhs => rw [chunksOf, dif_pos ⟨h, hc⟩]
        rw [List.take_append_eq_append_take, Nat.sub_eq_zero_of_le hc, List.take_zero,
          List.append_nil, List.drop_append_eq_append_drop, Nat.sub_eq_zero_of_le hc,
          List.drop_zero, List.cons_append]
        congr 1
        exact ih (a.drop cs) b (by simp only [List.length_drop]; omega)
      · have h1 : chunksOf cs a = [] := by rw [chunksOf, dif_neg (by omega)]
        have h2 : chunksRem cs a = a := by rw [chunksRem, dif_neg (by omega)]
        rw [h1, h2, List.nil_append]
  exact key a.length a b le_rfl

theorem chunksRem_append (cs : Nat) (h : 0 < cs) (a b : List ℚ) :
    chunksRem cs (a ++ b) = chunksRem cs (chunksRem cs a ++ b) := by
  have key : ∀ (n : Nat) (a b : List ℚ), a.length ≤ n →
      chunksRem cs (a ++ b) = chunksRem cs (chunksRem cs a ++ b) := by
    intro n
    induction n with
    | zero =>
      intro a b ha
      have ha0 : a = [] := List.eq_nil_of_length_eq_zero (by omega)
      subst ha0
      have h2 : chunksRem cs ([] : List ℚ) = [] := by
        rw [chunksRem, dif_neg (by simp only [List.length_nil]; omega)]
      rw [h2]
    | succ n ih =>
      intro a b ha
      by_cases hc : cs ≤ a.length
      · have h2 : chunksRem cs a = chunksRem cs (a.drop cs) := by
          conv_lhs => rw [chunksRem, dif_pos ⟨h, hc⟩]
        rw [h2]
        conv_lhs => rw [chunksRem, dif_pos ⟨h, by simp only [List.length_append]; omega⟩]
        rw [List.drop_append_eq_append_drop, Nat.sub_eq_zero_of_le hc, List.drop_zero]
        exact ih (a.drop cs) b (by simp only [List.length_drop]; omega)
      · have h2 : chunksRem cs a = a := by rw [chunksRem, dif_neg (by omega)]
        rw [h2]
  exact key a.length a b le_rfl

theorem NumPyRingBuffer.clear_clear (s : NumPyRingBuffer α) : s.clear.clear = s.clear := rfl

theorem NumPyRingBuffer.clear_maxsize (s : NumPyRingBuffer α) : s.clear.maxsize = s.maxsize :=
  rfl

/-- The framing loop scores exactly the consecutive `cs`-frames of its input
and leaves exactly the remainder, while preserving configuration and touching
the chunk buffer at most by clearing it. -/
theorem SpeechRecognizer.chunk_loop_spec (cs : Nat) (hcs : 0 < cs) :
    ∀ (n : Nat) (arr : List ℚ), arr.length ≤ n →
      ∀ (r : SpeechRecognizer) (vads : List VadOutcome),
        scoredFrames (SpeechRecognizer.chunk_loop cs r arr vads).2.1 = chunksOf cs arr ∧
          (SpeechRecognizer.chunk_loop cs r arr vads).2.2.2 = chunksRem cs arr ∧
          cfgEq r (SpeechRecognizer.chunk_loop cs r arr vads).1 ∧
          ((SpeechRecognizer.chunk_loop cs r arr vads).1.chunk_buffer = r.chunk_buffer ∨
            (SpeechRecognizer.chunk_loop cs r arr vads).1.chunk_buffer = r.chunk_buffer.clear) := by
  intro n
  induction n with
  | zero =>
    intro arr harr r vads
    rw [SpeechRecognizer.chunk_loop_eq, dif_neg (by omega)]
    refine ⟨?_, ?_, cfgEq_refl r, Or.inl rfl⟩
    · rw [chunksOf, dif_neg (by omega)]
      simp [scoredFrames]
    · rw [chunksRem, dif_neg (by omega)]
  | succ n ih =>
    intro arr harr r vads
    by_cases hc : cs ≤ arr.length
    · rw [SpeechRecognizer.chunk_loop_eq, dif_pos ⟨hcs, hc⟩]
      have hstep := r.process_audio_chunk_cfg (arr.take cs) (vads.headD (Except.error ()))
      have hscored := r.process_audio_chunk_scored (arr.take cs) (vads.headD (Except.error ()))
      have hrec := ih (arr.drop cs) (by simp only [List.length_drop]; omega)
        (r.process_audio_chunk (arr.take cs) (vads.headD (Except.error ()))).1 vads.tail
      refine ⟨?_, ?_, ?_, ?_⟩
      · rw [scoredFrames_append, hscored, hrec.1]
        conv_rhs => rw [chunksOf, dif_pos ⟨hcs, hc⟩]
        rfl
      · rw [hrec.2.1]
        conv_rhs => rw [chunksRem, dif_pos ⟨hcs, hc⟩]
      · exact cfgEq_trans hstep.1 hrec.2.2.1
      · rcases hrec.2.2.2 with hcb | hcb <;> rcases hstep.2.1 with hcb' | hcb'
        · rw [hcb, hcb']
          exact Or.inl rfl
        · rw [hcb, hcb']
          exact Or.inr rfl
        · rw [hcb, hcb']
          exact Or.inr rfl
        · rw [hcb, hcb', NumPyRingBuffer.clear_clear]
          exact Or.inr rfl
    · rw [SpeechRecognizer.chunk_loop_eq, dif_neg (by omega)]
      refine ⟨?_, ?_, cfgEq_refl r, Or.inl rfl⟩
      · rw [chunksOf, dif_neg (by omega)]
        simp [scoredFrames]
      · rw [chunksRem, dif_neg (by omega)]

/-- One `_process_audio` call: the VAD scores exactly the `chunk_size`-frames
of residual-plus-new samples, and the chunk buffer afterwards holds exactly
the remainder.  Configuration fields and chunk-buffer well-formedness are
preserved. -/
theorem SpeechRecognizer.process_audio_spec (r : SpeechRecognizer) (d : List ℚ)
    (vads : List VadOutcome) (hcs : 0 < r.chunk_size)
    (hInv : r.chunk_buffer.Inv) (hms : r.chunk_buffer.maxsize = r.chunk_size)
    (hlt : r.chunk_buffer.count < r.chunk_size) :
    scoredFrames (r.process_audio d vads).2
        = chunksOf r.chunk_size (r.chunk_buffer.contents ++ d) ∧
      (r.process_audio d vads).1.chunk_buffer.contents
        = chunksRem r.chunk_size (r.chunk_buffer.contents ++ d) ∧
      cfgEq r (r.process_audio d vads).1 ∧
      (r.process_audio d vads).1.chunk_buffer.Inv ∧
      (r.process_audio d vads).1.chunk_buffer.maxsize = r.chunk_size ∧
      (r.process_audio d vads).1.chunk_buffer.count < r.chunk_size := by
  have hclen : r.chunk_buffer.contents.length = r.chunk_buffer.count :=
    r.chunk_buffer.length_contents
  by_cases hd0 : d.length = 0
  · have hd : d = [] := List.eq_nil_of_length_eq_zero hd0
    subst hd
    unfold SpeechRecognizer.process_audio
    rw [if_pos hd0]
    refine ⟨?_, ?_, cfgEq_refl r, hInv, hms, hlt⟩
    · rw [chunksOf, dif_neg (by simp only [List.length_append, List.length_nil]; omega)]
      simp [scoredFrames]
    · rw [chunksRem, dif_neg (by simp only [List.length_append, List.length_nil]; omega)]
      simp
  · -- the combined array entering the loop is `contents ++ d`, and the state
    -- entering the loop has an empty chunk buffer
    have key : ∀ (r0 : SpeechRecognizer),
        r0.chunk_size = r.chunk_size →
        r0.chunk_buffer.Inv → r0.chunk_buffer.maxsize = r.chunk_size →
        r0.chunk_buffer.count = 0 →
        cfgEq r r0 →
        ∀ (arr : List ℚ),
          (let lp := SpeechRecognizer.chunk_loop r0.chunk_size r0 arr vads
           let fin := if 0 < lp.2.2.2.length then
               ({ lp.1 with chunk_buffer := lp.1.chunk_buffer.put_bulk lp.2.2.2 }, lp.2.1)
             else (lp.1, lp.2.1)
           scoredFrames fin.2 = chunksOf r.chunk_size arr ∧
             fin.1.chunk_buffer.contents = chunksRem r.chunk_size arr ∧
             cfgEq r fin.1 ∧ fin.1.chunk_buffer.Inv ∧
             fin.1.chunk_buffer.maxsize = r.chunk_size ∧
             fin.1.chunk_buffer.count < r.chunk_size) := by
      intro r0 hsz hInv0 hms0 hcnt0 hcfg arr
      have hspec := SpeechRecognizer.chunk_loop_spec r0.chunk_size (hsz ▸ hcs)
        arr.length arr le_rfl r0 vads
      obtain ⟨hfr, hrem, hcfg', hcb⟩ := hspec
      have hcbInv : (SpeechRecognizer.chunk_loop r0.chunk_size r0 arr vads).1.chunk_buffer.Inv ∧
          (SpeechRecognizer.chunk_loop r0.chunk_size r0 arr vads).1.chunk_buffer.maxsize
            = r.chunk_size ∧
          (SpeechRecognizer.chunk_loop r0.chunk_size r0 arr vads).1.chunk_buffer.count = 0 := by
        rcases hcb with hcb | hcb <;> rw [hcb]
        · exact ⟨hInv0, hms0, hcnt0⟩
        · exact ⟨hInv0.clear, hms0, rfl⟩
      have hremlen : (SpeechRecognizer.chunk_loop r0.chunk_size r0 arr vads).2.2.2.length
          < r.chunk_size := by
        rw [hrem, hsz, chunksRem_length _ (hsz ▸ hcs)]
        exact Nat.mod_lt _ (hsz ▸ hcs)
      by_cases hrest : 0 < (SpeechRecognizer.chunk_loop r0.chunk_size r0 arr vads).2.2.2.length
      · simp only [if_pos hrest]
        have hput := NumPyRingBuffer.contents_put_bulk hcbInv.1
          (SpeechRecognizer.chunk_loop r0.chunk_size r0 arr vads).2.2.2
        have hnil : (SpeechRecognizer.chunk_loop r0.chunk_size r0 arr vads).1.chunk_buffer.contents
            = [] := NumPyRingBuffer.contents_eq_nil hcbInv.2.2
        refine ⟨by rw [hfr, hsz], ?_, cfgEq_trans hcfg hcfg',
          NumPyRingBuffer.Inv.put_bulk hcbInv.1 _, ?_, ?_⟩
        · rw [hput, hnil, List.nil_append, hcbInv.2.1]
          unfold takeLast
          rw [Nat.sub_eq_zero_of_le (le_of_lt hremlen), List.drop_zero, hrem, hsz]
        · rw [NumPyRingBuffer.put_bulk_maxsize, hcbInv.2.1]
        · rw [← NumPyRingBuffer.length_contents, hput, hnil, List.nil_append, hcbInv.2.1]
          unfold takeLast
          rw [Nat.sub_eq_zero_of_le (le_of_lt hremlen), List.drop_zero]
          exact hremlen
      · simp only [if_neg hrest]
        have hnilrem : (SpeechRecognizer.chunk_loop r0.chunk_size r0 arr vads).2.2.2 = [] :=
          List.eq_nil_of_length_eq_zero (by omega)
        refine ⟨by rw [hfr, hsz], ?_, cfgEq_trans hcfg hcfg', hcbInv.1, hcbInv.2.1, by omega⟩
        rw [NumPyRingBuffer.contents_eq_nil hcbInv.2.2, ← hnilrem, hrem, hsz]
    unfold SpeechRecognizer.process_audio
    rw [if_neg hd0]
    by_cases hcnt : 0 < r.chunk_buffer.size
    · simp only [if_pos hcnt]
      have hg1 : (r.chunk_buffer.get_bulk r.chunk_buffer.size).1 = r.chunk_buffer.contents := by
        have hsz' : r.chunk_buffer.size = r.chunk_buffer.contents.length := by
          rw [hclen]
          rfl
        rw [NumPyRingBuffer.get_bulk_fst hInv, hsz', List.take_length]
      rw [hg1]
      have hInvClear : (r.chunk_buffer.get_bulk r.chunk_buffer.size).2.clear.Inv :=
        (hInv.get_bulk r.chunk_buffer.size).clear
      have hmsClear : (r.chunk_buffer.get_bulk r.chunk_buffer.size).2.clear.maxsize
          = r.chunk_size := by
        rw [NumPyRingBuffer.clear_maxsize, NumPyRingBuffer.get_bulk_snd_maxsize, hms]
      exact key { r with chunk_buffer := (r.chunk_buffer.get_bulk r.chunk_buffer.size).2.clear }
        rfl hInvClear hmsClear rfl ⟨rfl, rfl, rfl, rfl, rfl, rfl, rfl, rfl⟩
        (r.chunk_buffer.contents ++ d)
    · simp only [if_neg hcnt]
      have hcnt0 : r.chunk_buffer.count = 0 := by
        by_contra hne
        exact hcnt (by simp only [NumPyRingBuffer.size]; omega)
      have hnil : r.chunk_buffer.contents = [] := NumPyRingBuffer.contents_eq_nil hcnt0
      rw [hnil, List.nil_append]
      exact key r rfl hInv hms hcnt0 (cfgEq_refl r) d

/-- The framing remainder is exactly the trailing `length % cs` samples. -/
theorem chunksRem_eq_takeLast (cs : Nat) (h : 0 < cs) (l : List ℚ) :
    chunksRem cs l = takeLast (l.length % cs) l := by
  have key : ∀ (n : Nat) (l : List ℚ), l.length ≤ n →
      chunksRem cs l = takeLast (l.length % cs) l := by
    intro n
    induction n with
    | zero =>
      intro l hl
      rw [chunksRem, dif_neg (by omega)]
      unfold takeLast
      rw [Nat.mod_eq_of_lt (by omega), Nat.sub_self, List.drop_zero]
    | succ n ih =>
      intro l hl
      rw [chunksRem]
      by_cases hc : cs ≤ l.length
      · rw [dif_pos ⟨h, hc⟩, ih (l.drop cs) (by simp only [List.length_drop]; omega)]
        unfold takeLast
        rw [List.drop_drop]
        simp only [List.length_drop]
        congr 1
        rw [← Nat.mod_eq_sub_mod hc]
        have hle : l.length % cs ≤ l.length - cs := by
          have := Nat.mod_le (l.length - cs) cs
          rw [← Nat.mod_eq_sub_mod hc] at this
          omega
        omega
      · rw [dif_neg (by omega)]
        unfold takeLast
        rw [Nat.mod_eq_of_lt (by omega), Nat.sub_self, List.drop_zero]
  exact key l.length l le_rfl

/-- Repeated `_process_audio` calls: frames scored and residual kept, over the
whole run. -/
theorem SpeechRecognizer.run_samples_spec :
    ∀ (inputs : List (List ℚ × List VadOutcome)) (r : SpeechRecognizer),
      0 < r.chunk_size → r.chunk_buffer.Inv → r.chunk_buffer.maxsize = r.chunk_size →
      r.chunk_buffer.count < r.chunk_size →
      scoredFrames (r.run_samples inputs).2
          = chunksOf r.chunk_size (r.chunk_buffer.contents ++ (inputs.map Prod.fst).join) ∧
        (r.run_samples inputs).1.chunk_buffer.contents
          = chunksRem r.chunk_size (r.chunk_buffer.contents ++ (inputs.map Prod.fst).join) ∧
        cfgEq r (r.run_samples inputs).1 ∧
        (r.run_samples inputs).1.chunk_buffer.Inv ∧
        (r.run_samples inputs).1.chunk_buffer.maxsize = r.chunk_size ∧
        (r.run_samples inputs).1.chunk_buffer.count < r.chunk_size := by
  intro inputs
  induction inputs with
  | nil =>
    intro r hcs hInv hms hlt
    have hclen : r.chunk_buffer.contents.length = r.chunk_buffer.count :=
      r.chunk_buffer.length_contents
    refine ⟨?_, ?_, cfgEq_refl r, hInv, hms, hlt⟩
    · rw [chunksOf, dif_neg (by simp only [List.map_nil, List.join_nil, List.append_nil]; omega)]
      simp [SpeechRecognizer.run_samples, scoredFrames]
    · rw [chunksRem, dif_neg (by simp only [List.map_nil, List.join_nil, List.append_nil]; omega)]
      simp [SpeechRecognizer.run_samples]
  | cons hd rest ih =>
    intro r hcs hInv hms hlt
    obtain ⟨d, vs⟩ := hd
    have hspec := r.process_audio_spec d vs hcs hInv hms hlt
    obtain ⟨hfr, hrem, hcfg, hInv', hms', hlt'⟩ := hspec
    have hsz : (r.process_audio d vs).1.chunk_size = r.chunk_size := hcfg.2.1
    have hih := ih (r.process_audio d vs).1 (by omega) hInv' (by omega) (by omega)
    obtain ⟨ihfr, ihrem, ihcfg, ihInv, ihms, ihlt⟩ := hih
    rw [hsz] at ihfr ihrem ihms ihlt
    have hassoc : r.chunk_buffer.contents ++ ((((d, vs) :: rest).map Prod.fst).join)
        = (r.chunk_buffer.contents ++ d) ++ ((rest.map Prod.fst).join) := by
      simp [List.append_assoc]
    refine ⟨?_, ?_, cfgEq_trans hcfg ihcfg, ihInv, ihms, ihlt⟩
    · show scoredFrames ((r.process_audio d vs).2
          ++ ((r.process_audio d vs).1.run_samples rest).2) = _
      rw [scoredFrames_append, hfr, ihfr, hrem, hassoc]
      exact (chunksOf_append r.chunk_size hcs _ _).symm
    · show (((r.process_audio d vs).1.run_samples rest).1).chunk_buffer.contents = _
      rw [ihrem, hrem, hassoc]
      exact (chunksRem_append r.chunk_size hcs _ _).symm

/-!
## Claim C1 — pipeline framing
-/

/-- C1: over any sequence of ingest calls (decoded sample arrays with their
VAD outcomes), writing `S` for the prior residual followed by all decoded
samples: exactly `K = |S| / chunk_size` frames are handed to the VAD scorer,
namely the consecutive non-overlapping `chunk_size`-sample slices of `S` in
stream order, and exactly the `R = |S| % chunk_size` trailing samples of `S`
(with `R < chunk_size`) are left in the chunk buffer for the next call. -/
theorem C1_pipeline_framing {r : SpeechRecognizer}
    (inputs : List (List ℚ × List VadOutcome)) (hcs : 0 < r.chunk_size)
    (hInv : r.chunk_buffer.Inv) (hms : r.chunk_buffer.maxsize = r.chunk_size)
    (hlt : r.chunk_buffer.count < r.chunk_size) :
    scoredFrames (r.run_samples inputs).2
        = chunksOf r.chunk_size (r.chunk_buffer.contents ++ (inputs.map Prod.fst).join) ∧
      (scoredFrames (r.run_samples inputs).2).length
        = (r.chunk_buffer.contents ++ (inputs.map Prod.fst).join).length / r.chunk_size ∧
      (∀ f ∈ scoredFrames (r.run_samples inputs).2, f.length = r.chunk_size) ∧
      (r.run_samples inputs).1.chunk_buffer.contents
        = takeLast ((r.chunk_buffer.contents ++ (inputs.map Prod.fst).join).length % r.chunk_size)
            (r.chunk_buffer.contents ++ (inputs.map Prod.fst).join) ∧
      (r.run_samples inputs).1.chunk_buffer.contents.length
        = (r.chunk_buffer.contents ++ (inputs.map Prod.fst).join).length % r.chunk_size ∧
      (r.chunk_buffer.contents ++ (inputs.map Prod.fst).join).length % r.chunk_size
        < r.chunk_size := by
  obtain ⟨hfr, hrem, _, _, _, _⟩ :=
    SpeechRecognizer.run_samples_spec inputs r hcs hInv hms hlt
  refine ⟨hfr, ?_, ?_, ?_, ?_, Nat.mod_lt _ hcs⟩
  · rw [hfr, chunksOf_length _ hcs]
  · rw [hfr]
    exact chunksOf_mem_length _ hcs _
  · rw [hrem, chunksRem_eq_takeLast _ hcs]
  · rw [hrem, chunksRem_length _ hcs]

/-- Small session used by several witnesses: chunk size 2. -/
def cfgW : VADConfig :=
  { threshold := 1 / 2
    min_speech_duration_ms := 0
    max_speech_duration_s := 1 / 8000
    prefix_speech_pad_ms := 0
    silence_duration_ms := 1 / 8
    chunk_size := 2 }

def rW : SpeechRecognizer := SpeechRecognizer.init cfgW true

/-- Witness for `C1_pipeline_framing`: two calls with three + one samples at
chunk size 2 leave 4 samples, hence two frames and an empty residual. -/
theorem C1_pipeline_framing_witness :
    0 < rW.chunk_size ∧ rW.chunk_buffer.Inv ∧ rW.chunk_buffer.maxsize = rW.chunk_size ∧
      rW.chunk_buffer.count < rW.chunk_size ∧
      (scoredFrames
          (rW.run_samples [([1, 2, 3], [Except.ok 0, Except.ok 0]), ([4], [Except.ok 0])]).2
          = chunksOf rW.chunk_size (rW.chunk_buffer.contents
              ++ (([([1, 2, 3], [Except.ok 0, Except.ok 0]),
                    ([4], [Except.ok 0])] : List (List ℚ × List VadOutcome)).map Prod.fst).join) ∧
        (scoredFrames
            (rW.run_samples [([1, 2, 3], [Except.ok 0, Except.ok 0]), ([4], [Except.ok 0])]).2).length
          = (rW.chunk_buffer.contents
              ++ (([([1, 2, 3], [Except.ok 0, Except.ok 0]),
                    ([4], [Except.ok 0])] : List (List ℚ × List VadOutcome)).map Prod.fst).join).length
            / rW.chunk_size ∧
        (∀ f ∈ scoredFrames
            (rW.run_samples [([1, 2, 3], [Except.ok 0, Except.ok 0]), ([4], [Except.ok 0])]).2,
          f.length = rW.chunk_size) ∧
        (rW.run_samples [([1, 2, 3], [Except.ok 0, Except.ok 0]), ([4], [Except.ok 0])]).1.chunk_buffer.contents
          = takeLast ((rW.chunk_buffer.contents
              ++ (([([1, 2, 3], [Except.ok 0, Except.ok 0]),
                    ([4], [Except.ok 0])] : List (List ℚ × List VadOutcome)).map Prod.fst).join).length
              % rW.chunk_size)
            (rW.chunk_buffer.contents
              ++ (([([1, 2, 3], [Except.ok 0, Except.ok 0]),
                    ([4], [Except.ok 0])] : List (List ℚ × List VadOutcome)).map Prod.fst).join) ∧
        (rW.run_samples [([1, 2, 3], [Except.ok 0, Except.ok 0]), ([4], [Except.ok 0])]).1.chunk_buffer.contents.length
          = (rW.chunk_buffer.contents
              ++ (([([1, 2, 3], [Except.ok 0, Except.ok 0]),
                    ([4], [Except.ok 0])] : List (List ℚ × List VadOutcome)).map Prod.fst).join).length
            % rW.chunk_size ∧
        (rW.chunk_buffer.contents
            ++ (([([1, 2, 3], [Except.ok 0, Except.ok 0]),
                  ([4], [Except.ok 0])] : List (List ℚ × List VadOutcome)).map Prod.fst).join).length
            % rW.chunk_size < rW.chunk_size) :=
  ⟨by decide, by decide, by decide, by decide,
    C1_pipeline_framing [([1, 2, 3], [Except.ok 0, Except.ok 0]), ([4], [Except.ok 0])]
      (by decide) (by decide) (by decide) (by decide)⟩

/-!
## Claim C7 — payload decoding
-/

/-- C7, as stated, is false on odd-length payloads: the one-byte payload `[0]`
is not float32-eligible, but it is not decoded as 16-bit PCM either —
`np.frombuffer(..., np.int16)` raises `ValueError` and the payload is not
ingested. -/
theorem C7_decoding_counterexample :
    ¬ (([0] : List Nat).length % 4 = 0) ∧ (rW.add_audio_chunk [0] []).isNone = true := by
  decide

/-- C7 (amended): a payload is decoded as float32 little-endian iff its byte
length is a multiple of 4 and every decoded value satisfies `|x| ≤ 1.5`;
otherwise, when the byte length is even it is decoded as signed 16-bit PCM
little-endian with each sample mapped to `x / 32768`; an odd-length payload in
the PCM branch raises and is not ingested.  In both successful cases the
decoded samples are appended to the audio ring and then framed, so the VAD
scores exactly the `chunk_size`-sample frames of residual-plus-samples. -/
theorem C7_decoding (r : SpeechRecognizer) (p : List Nat) (vads : List VadOutcome)
    (hcs : 0 < r.chunk_size) (hInv : r.chunk_buffer.Inv)
    (hms : r.chunk_buffer.maxsize = r.chunk_size) (hlt : r.chunk_buffer.count < r.chunk_size) :
    (p.length % 4 = 0 ∧ (decode_float32 p).all (fun v => f32_abs_le v (3 / 2)) = true →
        r.add_audio_chunk p vads
            = some (SpeechRecognizer.process_audio
                { r with
                  audio_buffer := r.audio_buffer.put_bulk ((decode_float32 p).map f32_toRat) }
                ((decode_float32 p).map f32_toRat) vads) ∧
          scoredFrames (SpeechRecognizer.process_audio
              { r with
                audio_buffer := r.audio_buffer.put_bulk ((decode_float32 p).map f32_toRat) }
              ((decode_float32 p).map f32_toRat) vads).2
            = chunksOf r.chunk_size
                (r.chunk_buffer.contents ++ (decode_float32 p).map f32_toRat)) ∧
      (¬ (p.length % 4 = 0 ∧ (decode_float32 p).all (fun v => f32_abs_le v (3 / 2)) = true) →
        p.length % 2 = 0 →
        r.add_audio_chunk p vads
            = some (SpeechRecognizer.process_audio
                { r with audio_buffer := r.audio_buffer.put_bulk (decode_pcm16 p) }
                (decode_pcm16 p) vads) ∧
          scoredFrames (SpeechRecognizer.process_audio
              { r with audio_buffer := r.audio_buffer.put_bulk (decode_pcm16 p) }
              (decode_pcm16 p) vads).2
            = chunksOf r.chunk_size (r.chunk_buffer.contents ++ decode_pcm16 p)) ∧
      (¬ (p.length % 4 = 0 ∧ (decode_float32 p).all (fun v => f32_abs_le v (3 / 2)) = true) →
        ¬ p.length % 2 = 0 →
        r.add_audio_chunk p vads = none) := by
  refine ⟨?_, ?_, ?_⟩
  · intro hcond
    constructor
    · unfold SpeechRecognizer.add_audio_chunk
      rw [if_pos hcond]
    · exact (SpeechRecognizer.process_audio_spec
        { r with
          audio_buffer := r.audio_buffer.put_bulk ((decode_float32 p).map f32_toRat) }
        ((decode_float32 p).map f32_toRat) vads hcs hInv hms hlt).1
  · intro hcond heven
    constructor
    · unfold SpeechRecognizer.add_audio_chunk SpeechRecognizer.add_pcm
      rw [if_neg hcond, if_pos heven]
    · exact (SpeechRecognizer.process_audio_spec
        { r with audio_buffer := r.audio_buffer.put_bulk (decode_pcm16 p) }
        (decode_pcm16 p) vads hcs hInv hms hlt).1
  · intro hcond hodd
    unfold SpeechRecognizer.add_audio_chunk SpeechRecognizer.add_pcm
    rw [if_neg hcond, if_neg hodd]

/-- Witness for `C7_decoding` at the session `rW` and the 4-byte payload
encoding the float32 value 1.0. -/
theorem C7_decoding_witness :
    0 < rW.chunk_size ∧ rW.chunk_buffer.Inv ∧ rW.chunk_buffer.maxsize = rW.chunk_size ∧
      rW.chunk_buffer.count < rW.chunk_size ∧
      (([0, 0, 128, 63] : List Nat).length % 4 = 0 ∧
        (decode_float32 [0, 0, 128, 63]).all (fun v => f32_abs_le v (3 / 2)) = true) ∧
      rW.add_audio_chunk [0, 0, 128, 63] []
        = some (SpeechRecognizer.process_audio
            { rW with
              audio_buffer := rW.audio_buffer.put_bulk ((decode_float32 [0, 0, 128, 63]).map f32_toRat) }
            ((decode_float32 [0, 0, 128, 63]).map f32_toRat) []) :=
  ⟨by decide, by decide, by decide, by decide, by decide,
    ((C7_decoding rW [0, 0, 128, 63] [] (by decide) (by decide) (by decide) (by decide)).1
      (by decide)).1⟩

/-!
## A generic simulation principle for whole-session runs

Trace properties of runs are proved once and for all from a per-chunk step
property: `P` is a state invariant, `α` abstracts the state, `Q a tr b` says
trace `tr` is acceptable from abstraction `a` to abstraction `b`, and `cond`
restricts the VAD outcomes considered (`fun _ => True` for unrestricted
runs). -/
structure RunSim (P : SpeechRecognizer → Prop) (A : Type) (abs : SpeechRecognizer → A)
    (Q : A → List TraceEntry → A → Prop) (cond : VadOutcome → Prop) : Prop where
  step : ∀ r c v, P r → cond v →
    P (r.process_audio_chunk c v).1 ∧
      Q (abs r) (r.process_audio_chunk c v).2 (abs (r.process_audio_chunk c v).1)
  audio : ∀ (r : SpeechRecognizer) (samples : List ℚ), P r →
    P { r with audio_buffer := r.audio_buffer.put_bulk samples } ∧
      abs { r with audio_buffer := r.audio_buffer.put_bulk samples } = abs r
  chunk : ∀ r b, P r →
    P { r with chunk_buffer := b } ∧ abs { r with chunk_buffer := b } = abs r
  condDefault : cond (Except.error ())
  nilQ : ∀ a, Q a [] a
  transQ : ∀ a t1 b t2 c, Q a t1 b → Q b t2 c → Q a (t1 ++ t2) c

theorem RunSim.chunk_loop {P : SpeechRecognizer → Prop} {A : Type}
    {abs : SpeechRecognizer → A} {Q : A → List TraceEntry → A → Prop}
    {cond : VadOutcome → Prop} (S : RunSim P A abs Q cond) :
    ∀ (n : Nat) (arr : List ℚ), arr.length ≤ n →
      ∀ (cs : Nat) (r : SpeechRecognizer) (vads : List VadOutcome),
        P r → (∀ v ∈ vads, cond v) →
        P (SpeechRecognizer.chunk_loop cs r arr vads).1 ∧
          Q (abs r) (SpeechRecognizer.chunk_loop cs r arr vads).2.1
            (abs (SpeechRecognizer.chunk_loop cs r arr vads).1) := by
  intro n
  induction n with
  | zero =>
    intro arr harr cs r vads hP hv
    rw [SpeechRecognizer.chunk_loop_eq]
    by_cases hc : 0 < cs ∧ cs ≤ arr.length
    · exact absurd hc (by omega)
    · rw [dif_neg hc]
      exact ⟨hP, S.nilQ _⟩
  | succ n ih =>
    intro arr harr cs r vads hP hv
    rw [SpeechRecognizer.chunk_loop_eq]
    by_cases hc : 0 < cs ∧ cs ≤ arr.length
    · rw [dif_pos hc]
      have hcv : cond (vads.headD (Except.error ())) := by
        cases vads with
        | nil => exact S.condDefault
        | cons v vs => exact hv v (List.mem_cons_self v vs)
      have hstep := S.step r (arr.take cs) (vads.headD (Except.error ())) hP hcv
      have hrec := ih (arr.drop cs) (by simp only [List.length_drop]; omega) cs
        (r.process_audio_chunk (arr.take cs) (vads.headD (Except.error ()))).1 vads.tail
        hstep.1 (fun v hvmem => hv v (List.mem_of_mem_tail hvmem))
      exact ⟨hrec.1, S.transQ _ _ _ _ _ hstep.2 hrec.2⟩
    · rw [dif_neg hc]
      exact ⟨hP, S.nilQ _⟩

theorem RunSim.process_audio {P : SpeechRecognizer → Prop} {A : Type}
    {abs : SpeechRecognizer → A} {Q : A → List TraceEntry → A → Prop}
    {cond : VadOutcome → Prop} (S : RunSim P A abs Q cond)
    (r : SpeechRecognizer) (d : List ℚ) (vads : List VadOutcome)
    (hP : P r) (hv : ∀ v ∈ vads, cond v) :
    P (r.process_audio d vads).1 ∧
      Q (abs r) (r.process_audio d vads).2 (abs (r.process_audio d vads).1) := by
  unfold SpeechRecognizer.process_audio
  by_cases hd0 : d.length = 0
  · rw [if_pos hd0]
    exact ⟨hP, S.nilQ _⟩
  · rw [if_neg hd0]
    by_cases hcnt : 0 < r.chunk_buffer.size
    · simp only [if_pos hcnt]
      have hpre := S.chunk r (r.chunk_buffer.get_bulk r.chunk_buffer.size).2.clear hP
      have hlp := RunSim.chunk_loop S
        ((r.chunk_buffer.get_bulk r.chunk_buffer.size).1 ++ d).length
        ((r.chunk_buffer.get_bulk r.chunk_buffer.size).1 ++ d) le_rfl r.chunk_size
        { r with chunk_buffer := (r.chunk_buffer.get_bulk r.chunk_buffer.size).2.clear }
        vads hpre.1 hv
      by_cases hrest : 0 < (SpeechRecognizer.chunk_loop r.chunk_size
          { r with chunk_buffer := (r.chunk_buffer.get_bulk r.chunk_buffer.size).2.clear }
          ((r.chunk_buffer.get_bulk r.chunk_buffer.size).1 ++ d) vads).2.2.2.length
      · simp only [if_pos hrest]
        have hfin := S.chunk
          (SpeechRecognizer.chunk_loop r.chunk_size
            { r with chunk_buffer := (r.chunk_buffer.get_bulk r.chunk_buffer.size).2.clear }
            ((r.chunk_buffer.get_bulk r.chunk_buffer.size).1 ++ d) vads).1
          ((SpeechRecognizer.chunk_loop r.chunk_size
            { r with chunk_buffer := (r.chunk_buffer.get_bulk r.chunk_buffer.size).2.clear }
            ((r.chunk_buffer.get_bulk r.chunk_buffer.size).1 ++ d) vads).1.chunk_buffer.put_bulk
            (SpeechRecognizer.chunk_loop r.chunk_size
              { r with chunk_buffer := (r.chunk_buffer.get_bulk r.chunk_buffer.size).2.clear }
              ((r.chunk_buffer.get_bulk r.chunk_buffer.size).1 ++ d) vads).2.2.2)
          hlp.1
        rw [hpre.2] at hlp
        exact ⟨hfin.1, by rw [hfin.2]; exact hlp.2⟩
      · simp only [if_neg hrest]
        rw [hpre.2] at hlp
        exact hlp
    · simp only [if_neg hcnt]
      have hlp := RunSim.chunk_loop S d.length d le_rfl r.chunk_size r vads hP hv
      by_cases hrest : 0 < (SpeechRecognizer.chunk_loop r.chunk_size r d vads).2.2.2.length
      · simp only [if_pos hrest]
        have hfin := S.chunk (SpeechRecognizer.chunk_loop r.chunk_size r d vads).1
          ((SpeechRecognizer.chunk_loop r.chunk_size r d vads).1.chunk_buffer.put_bulk
            (SpeechRecognizer.chunk_loop r.chunk_size r d vads).2.2.2) hlp.1
        exact ⟨hfin.1, by rw [hfin.2]; exact hlp.2⟩
      · simp only [if_neg hrest]
        exact hlp

theorem RunSim.add_audio_chunk {P : SpeechRecognizer → Prop} {A : Type}
    {abs : SpeechRecognizer → A} {Q : A → List TraceEntry → A → Prop}
    {cond : VadOutcome → Prop} (S : RunSim P A abs Q cond)
    (r : SpeechRecognizer) (p : List Nat) (vads : List VadOutcome)
    (hP : P r) (hv : ∀ v ∈ vads, cond v) :
    ∀ res, r.add_audio_chunk p vads = some res → P res.1 ∧ Q (abs r) res.2 (abs res.1) := by
  intro res hres
  unfold SpeechRecognizer.add_audio_chunk SpeechRecognizer.add_pcm at hres
  by_cases h4 : p.length % 4 = 0 ∧ (decode_float32 p).all (fun v => f32_abs_le v (3 / 2)) = true
  · rw [if_pos h4] at hres
    have haud := S.audio r ((decode_float32 p).map f32_toRat) hP
    have hpa := RunSim.process_audio S _ ((decode_float32 p).map f32_toRat) vads haud.1 hv
    rw [haud.2] at hpa
    cases hres
    exact hpa
  · rw [if_neg h4] at hres
    by_cases h2 : p.length % 2 = 0
    · rw [if_pos h2] at hres
      have haud := S.audio r (decode_pcm16 p) hP
      have hpa := RunSim.process_audio S _ (decode_pcm16 p) vads haud.1 hv
      rw [haud.2] at hpa
      cases hres
      exact hpa
    · rw [if_neg h2] at hres
      cases hres

theorem RunSim.run {P : SpeechRecognizer → Prop} {A : Type}
    {abs : SpeechRecognizer → A} {Q : A → List TraceEntry → A → Prop}
    {cond : VadOutcome → Prop} (S : RunSim P A abs Q cond) :
    ∀ (inputs : List (List Nat × List VadOutcome)) (r : SpeechRecognizer),
      P r → (∀ pv ∈ inputs, ∀ v ∈ pv.2, cond v) →
      ∀ res, r.run inputs = some res → P res.1 ∧ Q (abs r) res.2 (abs res.1) := by
  intro inputs
  induction inputs with
  | nil =>
    intro r hP hv res hres
    unfold SpeechRecognizer.run at hres
    cases hres
    exact ⟨hP, S.nilQ _⟩
  | cons hd rest ih =>
    intro r hP hv res hres
    obtain ⟨p, vs⟩ := hd
    unfold SpeechRecognizer.run at hres
    rcases h1 : r.add_audio_chunk p vs with _ | r1
    · rw [h1] at hres
      simp at hres
    · obtain ⟨r1s, es1⟩ := r1
      rw [h1] at hres
      dsimp only at hres
      rcases h2 : r1s.run rest with _ | r2
      · rw [h2] at hres
        simp at hres
      · obtain ⟨r2s, es2⟩ := r2
        rw [h2] at hres
        simp only [Option.some.injEq] at hres
        have hstep := RunSim.add_audio_chunk S r p vs hP
          (hv (p, vs) (List.mem_cons_self _ _)) (r1s, es1) h1
        have hrest := ih r1s hstep.1
          (fun pv hpv v hvv => hv pv (List.mem_cons_of_mem _ hpv)  v hvv) (r2s, es2) h2
        subst hres
        exact ⟨hrest.1, S.transQ _ _ _ _ _ hstep.2 hrest.2⟩

/-- Successful event-callback deliveries in a trace. -/
def notifiedEvents (tr : List TraceEntry) : List (SRState × Option Nat × Nat) :=
  tr.filterMap (fun e =>
    match e with
    | TraceEntry.notified st sid bs => some (st, sid, bs)
    | _ => none)

theorem notifiedEvents_append (a b : List TraceEntry) :
    notifiedEvents (a ++ b) = notifiedEvents a ++ notifiedEvents b := by
  simp [notifiedEvents]

/-- `_trigger_recognition` never emits callback events (only a dispatch). -/
theorem SpeechRecognizer.trigger_recognition_notified (r : SpeechRecognizer) (sa : List ℚ) :
    notifiedEvents (r.trigger_recognition sa) = [] := by
  unfold SpeechRecognizer.trigger_recognition
  repeat' split
  all_goals simp [notifiedEvents]

/-- With a plain-function callback, a chunk step delivers no events at all. -/
theorem SpeechRecognizer.process_audio_chunk_sync (r : SpeechRecognizer)
    (hcb : r.callback_is_coroutine = false) (c : List ℚ) (v : VadOutcome) :
    notifiedEvents (r.process_audio_chunk c v).2 = [] := by
  have htrig' : ∀ (sa : List ℚ), ∀ a ∈ r.trigger_recognition sa,
      (match a with
        | TraceEntry.notified st sid bs => some (st, sid, bs)
        | _ => none) = (none : Option (SRState × Option Nat × Nat)) := by
    intro sa
    have h := r.trigger_recognition_notified sa
    unfold notifiedEvents at h
    exact List.filterMap_eq_nil.mp h
  have hcb' : ¬ (r.callback_is_coroutine = true) := by simp [hcb]
  unfold SpeechRecognizer.process_audio_chunk SpeechRecognizer.notify
  rcases v with e | p
  · simp [notifiedEvents]
  · dsimp only
    simp only [if_neg hcb']
    repeat' split
    all_goals simp [notifiedEvents_append, notifiedEvents]
    all_goals exact htrig' _

/-- C10: with a plain (non-coroutine) callback, every `_notify` call raises
`AttributeError` — the code reads the nonexistent attribute `_audio_buffe`
while building the callback arguments — so the callback never receives a
SpeechStart or SpeechEnd event in any run; on the speech-end path the
exception is swallowed by the surrounding handler after `speech_start_index`
has been reset, so `speech_id` is left uncleared. -/
theorem C10_sync_callback_attribute_error (r : SpeechRecognizer)
    (hcb : r.callback_is_coroutine = false) :
    (∀ st, r.notify st = Except.error ()) ∧
      (∀ (inputs : List (List Nat × List VadOutcome)) (res : SpeechRecognizer × List TraceEntry),
        r.run inputs = some res → notifiedEvents res.2 = []) ∧
      (∀ (c : List ℚ) (p : ℚ), ¬ r.threshold < p → 0 ≤ r.speech_start_index →
        r.silence_duration_frames ≤ ((r.silence_counter + 1 : Nat) : Int) →
        (r.process_audio_chunk c (Except.ok p)).1.speech_id = r.speech_id ∧
          (r.process_audio_chunk c (Except.ok p)).1.speech_start_index = -1) := by
  have hS : RunSim (fun r => r.callback_is_coroutine = false) Unit (fun _ => ())
      (fun _ tr _ => notifiedEvents tr = []) (fun _ => True) := by
    refine ⟨?_, ?_, ?_, trivial, fun _ => rfl, ?_⟩
    · intro r c v hP _
      refine ⟨?_, r.process_audio_chunk_sync hP c v⟩
      rw [(r.process_audio_chunk_cfg c v).1.2.2.2.2.2.2.2, hP]
    · intro r b hP
      exact ⟨hP, rfl⟩
    · intro r b hP
      exact ⟨hP, rfl⟩
    · intro a t1 b t2 c h1 h2
      rw [notifiedEvents_append, h1, h2]
      rfl
  refine ⟨?_, ?_, ?_⟩
  · intro st
    unfold SpeechRecognizer.notify
    rw [if_neg (by simp [hcb])]
  · intro inputs res hres
    exact (RunSim.run hS inputs r hcb (fun _ _ _ _ => trivial) res hres).2
  · intro c p hp hidx hcnt
    have hcb' : ¬ (r.callback_is_coroutine = true) := by simp [hcb]
    unfold SpeechRecognizer.process_audio_chunk SpeechRecognizer.notify
    dsimp only
    rw [if_neg hp, if_pos hidx, if_pos hcnt]
    simp only [if_neg hcb']
    exact ⟨trivial, trivial⟩

/-- Witness for `C10_sync_callback_attribute_error` at a concrete session with
a synchronous callback. -/
theorem C10_sync_callback_witness :
    (SpeechRecognizer.init cfgW false).callback_is_coroutine = false ∧
      (SpeechRecognizer.init cfgW false).notify SRState.SPEECH_START = Except.error () :=
  ⟨by decide, (C10_sync_callback_attribute_error (SpeechRecognizer.init cfgW false)
    (by decide)).1 SRState.SPEECH_START⟩

/-- `recognize_async` dispatches in a trace: (speech_id, samples, prompt). -/
def dispatchedEvents (tr : List TraceEntry) : List (Option Nat × List ℚ × Option String) :=
  tr.filterMap (fun e =>
    match e with
    | TraceEntry.dispatched sid samples pr => some (sid, samples, pr)
    | _ => none)

theorem dispatchedEvents_append (a b : List TraceEntry) :
    dispatchedEvents (a ++ b) = dispatchedEvents a ++ dispatchedEvents b := by
  simp [dispatchedEvents]

/-!
## Claim C8 — the prompt setter never stores a string
-/

/-- C8: the `prompt` setter's assignment sits in the non-string branch of the
Python source, so `set_prompt("hello")` leaves `_prompt` at `None`, and the
recognition dispatched at the end of an utterance receives prompt `None`
rather than `"hello"` — refuting the claimed store-then-pass behaviour, which
is clearly the intent of a setter. -/
theorem C8_prompt_setter_never_stores :
    ((SpeechRecognizer.init cfgW true).set_prompt (PyStr.str "hello")).prompt = none ∧
      Option.map (fun res => dispatchedEvents res.2)
          (((SpeechRecognizer.init cfgW true).set_prompt (PyStr.str "hello")).run
            [([0, 0, 0, 0, 0, 0], [Except.ok 1]),
             ([0, 0, 0, 0, 0, 0], [Except.ok 0, Except.ok 0])])
        = some [(some 0, [0], none)] := by
  decide

/-- A raising VAD call leaves the state untouched (`except` logs only). -/
theorem SpeechRecognizer.process_audio_chunk_error (r : SpeechRecognizer) (c : List ℚ)
    (e : Unit) : r.process_audio_chunk c (Except.error e) = (r, [TraceEntry.scored c]) := rfl

/-!
## Claim C9 — VAD errors skip the frame entirely
-/

/-- C9, as stated, is false: at a reachable IN_SPEECH state, a frame whose
scoring raises leaves the silence counter at 0, whereas a genuinely
non-speech frame advances it to 1 — the error is not "treated as
non-speech". -/
theorem C9_vad_error_counterexample :
    Option.map (fun res =>
        ((res.1.process_audio_chunk [0, 0] (Except.error ())).1.silence_counter,
          (res.1.process_audio_chunk [0, 0] (Except.ok 0)).1.silence_counter))
      ((SpeechRecognizer.init { cfgW with silence_duration_ms := 1 / 4 } true).run
        [([0, 0, 0, 0, 0, 0], [Except.ok 1])])
      = some (0, 1) := by
  decide

/-- C9 (amended): an error from the VAD scorer is caught — it never propagates
to ingest — but the frame is then skipped entirely: the state is unchanged (in
particular the silence counter does not advance while IN_SPEECH, so a run of
failing frames can never end an utterance) and no event is emitted beyond the
record of the frame having been handed to the scorer. -/
theorem C9_vad_error_skips_frame (r : SpeechRecognizer) (c : List ℚ) (e : Unit) :
    r.process_audio_chunk c (Except.error e) = (r, [TraceEntry.scored c]) := rfl

/-!
## Claim C4 — IDLE behaviour on non-speech frames
-/

/-- In IDLE, a frame at or below the threshold changes nothing at all: no
trimming of the audio ring takes place (there is no such code path). -/
theorem SpeechRecognizer.process_audio_chunk_idle_silence (r : SpeechRecognizer)
    (c : List ℚ) (p : ℚ) (hp : ¬ r.threshold < p) (hidle : r.speech_start_index < 0) :
    r.process_audio_chunk c (Except.ok p) = (r, [TraceEntry.scored c]) := by
  unfold SpeechRecognizer.process_audio_chunk
  dsimp only
  rw [if_neg hp, if_neg (by omega)]

/-- C4, as stated, is false: after one silent payload of three samples at
chunk size 2 and prefix pad 0, the audio ring holds 3 samples, exceeding
`prefix_pad_samples + chunk_size = 2` — the ring is never trimmed in IDLE. -/
theorem C4_idle_trim_counterexample :
    Option.map (fun res => res.1.audio_buffer.size)
        ((SpeechRecognizer.init cfgW true).run [([0, 0, 0, 0, 0, 0], [Except.ok 0])])
      = some 3 ∧
      (pyInt ((16000 : ℚ) * (SpeechRecognizer.init cfgW true).prefix_speech_pad_s)).toNat
          + (SpeechRecognizer.init cfgW true).chunk_size = 2 ∧
      ¬ (3 : Nat) ≤ 2 := by
  decide

/-- C4 (amended): a frame processed in IDLE at or below the threshold performs
no action whatsoever — in particular the audio ring is NOT trimmed — so under
pure silence the session stays IDLE, emits no events, dispatches no
recognition, and the audio ring grows until bounded by its own capacity
`(max_speech_s + prefix_pad_s + silence_s) × sample_rate` (oldest samples
overwritten), not by `prefix_pad_samples + chunk_size`. -/
theorem C4_idle_silence (r : SpeechRecognizer)
    (hidle : r.speech_start_index < 0)
    (hcnt : r.audio_buffer.count ≤ r.audio_buffer.maxsize)
    (inputs : List (List Nat × List VadOutcome))
    (hv : ∀ pv ∈ inputs, ∀ v ∈ pv.2, v = Except.error () ∨
      ∃ p, v = Except.ok p ∧ ¬ r.threshold < p)
    (res : SpeechRecognizer × List TraceEntry) (hres : r.run inputs = some res) :
    notifiedEvents res.2 = [] ∧ dispatchedEvents res.2 = [] ∧
      res.1.speech_start_index < 0 ∧ res.1.speech_id = r.speech_id ∧
      res.1.audio_buffer.count ≤ res.1.audio_buffer.maxsize ∧
      res.1.audio_buffer.maxsize = r.audio_buffer.maxsize := by
  have hS : RunSim (fun s => s.threshold = r.threshold ∧ s.speech_start_index < 0 ∧
      s.speech_id = r.speech_id ∧ s.audio_buffer.count ≤ s.audio_buffer.maxsize ∧
      s.audio_buffer.maxsize = r.audio_buffer.maxsize) Unit (fun _ => ())
      (fun _ tr _ => notifiedEvents tr = [] ∧ dispatchedEvents tr = [])
      (fun v => v = Except.error () ∨ ∃ p, v = Except.ok p ∧ ¬ r.threshold < p) := by
    refine ⟨?_, ?_, ?_, Or.inl rfl, fun _ => ⟨rfl, rfl⟩, ?_⟩
    · intro s c v hP hcv
      rcases hcv with hcv | ⟨p, hcv, hp⟩
      · subst hcv
        rw [SpeechRecognizer.process_audio_chunk_error]
        exact ⟨hP, rfl, rfl⟩
      · subst hcv
        rw [SpeechRecognizer.process_audio_chunk_idle_silence s c p
          (by rw [hP.1]; exact hp) hP.2.1]
        exact ⟨hP, rfl, rfl⟩
    · intro s samples hP
      dsimp only
      refine ⟨⟨hP.1, hP.2.1, hP.2.2.1, ?_, ?_⟩, rfl⟩
      · rw [NumPyRingBuffer.put_bulk_maxsize]
        exact NumPyRingBuffer.put_bulk_count_le hP.2.2.2.1 samples
      · rw [NumPyRingBuffer.put_bulk_maxsize]
        exact hP.2.2.2.2
    · intro s b hP
      dsimp only
      exact ⟨hP, rfl⟩
    · intro a t1 b t2 c h1 h2
      rw [notifiedEvents_append, dispatchedEvents_append, h1.1, h1.2, h2.1, h2.2]
      exact ⟨rfl, rfl⟩
  have h := RunSim.run hS inputs r ⟨rfl, hidle, rfl, hcnt, rfl⟩ hv res hres
  exact ⟨h.2.1, h.2.2, h.1.2.1, h.1.2.2.1, h.1.2.2.2.1, h.1.2.2.2.2⟩

/-- Witness for `C4_idle_silence`: one silent payload from a fresh session. -/
theorem C4_idle_silence_witness :
    (SpeechRecognizer.init cfgW true).speech_start_index < 0 ∧
      (SpeechRecognizer.init cfgW true).audio_buffer.count
        ≤ (SpeechRecognizer.init cfgW true).audio_buffer.maxsize ∧
      Option.map (fun res => (notifiedEvents res.2, dispatchedEvents res.2))
          ((SpeechRecognizer.init cfgW true).run [([0, 0, 0, 0, 0, 0], [Except.ok 0])])
        = some ([], []) := by
  refine ⟨by decide, by decide, ?_⟩
  rcases hrun : (SpeechRecognizer.init cfgW true).run [([0, 0, 0, 0, 0, 0], [Except.ok 0])]
    with _ | res
  · have hsome : ((SpeechRecognizer.init cfgW true).run
        [([0, 0, 0, 0, 0, 0], [Except.ok 0])]).isSome = true := by decide
    rw [hrun] at hsome
    exact absurd hsome (by decide)
  · have h := C4_idle_silence (SpeechRecognizer.init cfgW true) (by decide) (by decide)
      [([0, 0, 0, 0, 0, 0], [Except.ok 0])]
      (by
        intro pv hpv v hvv
        simp only [List.mem_singleton] at hpv
        subst hpv
        simp only [List.mem_singleton] at hvv
        subst hvv
        exact Or.inr ⟨0, rfl, by decide⟩)
      res hrun
    rw [show Option.map (fun res => (notifiedEvents res.2, dispatchedEvents res.2)) (some res)
        = some (notifiedEvents res.2, dispatchedEvents res.2) from rfl, h.1, h.2.1]

/-!
## Claim C3 — no forced end at the max-speech bound
-/

/-- `_trigger_recognition` returns without dispatching when the utterance is
shorter than `sample_rate * min_speech_duration_s`. -/
theorem SpeechRecognizer.trigger_recognition_skip (r : SpeechRecognizer) (sa : List ℚ)
    (h : (sa.length : ℚ) < (r.sample_rate : ℚ) * r.min_speech_duration_s) :
    r.trigger_recognition sa = [] := by
  unfold SpeechRecognizer.trigger_recognition
  by_cases h0 : sa.length = 0
  · rw [if_pos h0]
  · rw [if_neg h0]
    dsimp only
    rw [if_pos h]

/-- The exact shape of `_trigger_recognition`'s output: nothing, or a single
`recognize_async` dispatch carrying the current `speech_id` and `prompt` and
the utterance truncated — at dispatch time only — to
`int(sample_rate * max_speech_duration_s)` samples. -/
theorem SpeechRecognizer.trigger_recognition_shape (r : SpeechRecognizer) (sa : List ℚ) :
    r.trigger_recognition sa = [] ∨
      (r.trigger_recognition sa
          = [TraceEntry.dispatched r.speech_id
              (if (r.sample_rate : ℚ) * r.max_speech_duration_s < (sa.length : ℚ) then
                sa.take (pyInt ((r.sample_rate : ℚ) * r.max_speech_duration_s)).toNat
              else sa) r.prompt]
        ∧ ¬ (sa.length : ℚ) < (r.sample_rate : ℚ) * r.min_speech_duration_s
        ∧ sa.length ≠ 0) := by
  unfold SpeechRecognizer.trigger_recognition
  by_cases h0 : sa.length = 0
  · rw [if_pos h0]
    exact Or.inl rfl
  · rw [if_neg h0]
    dsimp only
    by_cases hmin : (sa.length : ℚ) < (r.sample_rate : ℚ) * r.min_speech_duration_s
    · rw [if_pos hmin]
      exact Or.inl rfl
    · rw [if_neg hmin]
      exact Or.inr ⟨rfl, hmin, h0⟩

/-- C3, as stated, is false: at `cfgW` (max-speech bound = 2 samples, ring
capacity 4), after continuous speech the session is IN_SPEECH
(`speech_start_index = 3 ≥ 0`) with the audio ring holding 4 ≥ 2 samples, yet
the only event ever emitted is the initial SpeechStart: no SpeechEnd is forced
at the max-speech boundary and nothing is dispatched to recognition. -/
theorem C3_forced_end_counterexample :
    Option.map (fun res => (res.1.speech_start_index, res.1.audio_buffer.size,
        notifiedEvents res.2, dispatchedEvents res.2))
      ((SpeechRecognizer.init cfgW true).run
        [([0, 0, 0, 0, 0, 0], [Except.ok 1]),
         ([0, 0, 0, 0, 0, 0], [Except.ok 1, Except.ok 1])])
      = some (3, 4, [(SRState.SPEECH_START, some 0, 3)], []) ∧
    pyInt ((16000 : ℚ) * (SpeechRecognizer.init cfgW true).max_speech_duration_s) = 2 := by
  decide

/-- C3 (amended): while VAD keeps reporting speech, a frame processed
IN_SPEECH only resets the silence counter — no end-of-utterance transition is
ever forced, whatever the audio ring holds; `max_speech_duration_s` is applied
only inside `_trigger_recognition`, at a silence-triggered dispatch, where the
utterance passed to `recognize_async` is truncated to its first
`int(sample_rate * max_speech_duration_s)` samples. -/
theorem C3_no_forced_max_end (r : SpeechRecognizer) (c : List ℚ) (p : ℚ)
    (hp : r.threshold < p) (hsp : 0 ≤ r.speech_start_index) :
    r.process_audio_chunk c (Except.ok p)
        = ({ r with silence_counter := 0 }, [TraceEntry.scored c])
      ∧ ∀ (sa : List ℚ) (e : Option Nat × List ℚ × Option String),
          e ∈ dispatchedEvents (r.trigger_recognition sa) →
          e.2.1 = if (r.sample_rate : ℚ) * r.max_speech_duration_s < (sa.length : ℚ) then
              sa.take (pyInt ((r.sample_rate : ℚ) * r.max_speech_duration_s)).toNat
            else sa := by
  constructor
  · unfold SpeechRecognizer.process_audio_chunk
    dsimp only
    rw [if_pos hp, if_neg (by omega)]
  · intro sa e he
    rcases r.trigger_recognition_shape sa with hsh | ⟨hsh, _, _⟩
    · rw [hsh] at he
      simp [dispatchedEvents] at he
    · rw [hsh] at he
      simp only [dispatchedEvents, List.filterMap_cons, List.filterMap_nil] at he
      rw [List.mem_singleton] at he
      subst he
      rfl

/-- An IN_SPEECH session state: `cfgW` session with an utterance open at
ring index 3. -/
def rC3 : SpeechRecognizer :=
  { SpeechRecognizer.init cfgW true with speech_start_index := 3 }

/-- Witness for `C3_no_forced_max_end` at a concrete in-speech state. -/
theorem C3_no_forced_max_end_witness :
    rC3.threshold < 1 ∧ 0 ≤ rC3.speech_start_index ∧
      rC3.process_audio_chunk [0, 0] (Except.ok 1)
        = ({ rC3 with silence_counter := 0 }, [TraceEntry.scored [0, 0]]) :=
  ⟨by decide, by decide, (C3_no_forced_max_end rC3 [0, 0] 1 (by decide) (by decide)).1⟩

/-!
## Claim C6 — minimum-length skip and dispatched length bounds
-/

/-- The utterance extracted from the audio ring at the end transition
(lines 225-226): skip the first `speech_start_index` samples, then read
everything that remains. -/
def SpeechRecognizer.extracted (r : SpeechRecognizer) : List ℚ :=
  ((r.audio_buffer.get_bulk r.speech_start_index.toNat).2.get_bulk
    (r.audio_buffer.get_bulk r.speech_start_index.toNat).2.size).1

/-- The end-of-utterance transition with a coroutine callback: at a
silence-threshold frame the utterance is read out of the audio ring, possibly
dispatched, the buffers are cleared, and the SpeechEnd notification is issued
carrying the still-set `speech_id` — only afterwards is that id cleared. -/
theorem SpeechRecognizer.process_audio_chunk_end (r : SpeechRecognizer)
    (c : List ℚ) (p : ℚ) (hcb : r.callback_is_coroutine = true)
    (hp : ¬ r.threshold < p) (hsp : 0 ≤ r.speech_start_index)
    (hcnt : r.silence_duration_frames ≤ ((r.silence_counter + 1 : Nat) : Int)) :
    r.process_audio_chunk c (Except.ok p)
      = ({ r with
            silence_counter := 0
            audio_buffer := ((r.audio_buffer.get_bulk r.speech_start_index.toNat).2.get_bulk
              (r.audio_buffer.get_bulk r.speech_start_index.toNat).2.size).2.clear
            speech_start_index := -1
            chunk_buffer := r.chunk_buffer.clear
            speech_id := none },
          [TraceEntry.scored c] ++ r.trigger_recognition r.extracted
            ++ [TraceEntry.notified SRState.SPEECH_END r.speech_id 0]) := by
  unfold SpeechRecognizer.process_audio_chunk
  dsimp only
  rw [if_neg hp, if_pos hsp, if_pos hcnt]
  simp only [SpeechRecognizer.notify]
  rw [if_pos hcb]
  rfl

/-- A configuration with minimum bound 16 samples but max-speech truncation to
2 samples (the two settings pass the spec's independent clamps). -/
def rC6 : SpeechRecognizer :=
  SpeechRecognizer.init { cfgW with min_speech_duration_ms := 1 } true

/-- C6, as stated, is false: with min bound 16 samples and max bound 2
samples, a 16-sample utterance passes the minimum-length check, is truncated
to `int(sample_rate * max_speech_duration_s) = 2` samples and dispatched — a
dispatched utterance of 2 < 16 = min_speech_samples, violating the claimed
unconditional `min_speech_samples ≤ |U|`. -/
theorem C6_dispatch_below_min_counterexample :
    dispatchedEvents (rC6.trigger_recognition (List.replicate 16 0))
        = [(none, [0, 0], none)] ∧
      (([0, 0] : List ℚ).length : ℚ)
          < (rC6.sample_rate : ℚ) * rC6.min_speech_duration_s := by
  decide

/-- C6 (amended): recognition is skipped for utterances shorter than
`sample_rate * min_speech_duration_s` — nothing reaches `recognize_async` and
no RecognitionResult can follow, while the SpeechEnd event is still emitted
for the utterance.  A dispatched utterance always comes from an extracted
array of at least `min_speech_samples` and is that array truncated to at most
`max_speech_samples = int(sample_rate * max_speech_duration_s)`; its own
length is bounded below by `min_speech_samples` only when the configuration
satisfies `min_speech_samples ≤ max_speech_samples` — otherwise truncation
can cut a dispatched utterance below the minimum. -/
theorem C6_min_length_dispatch (r : SpeechRecognizer) :
    (∀ sa : List ℚ, (sa.length : ℚ) < (r.sample_rate : ℚ) * r.min_speech_duration_s →
        r.trigger_recognition sa = [])
      ∧ (∀ (sa : List ℚ) (e : Option Nat × List ℚ × Option String),
          e ∈ dispatchedEvents (r.trigger_recognition sa) →
          (r.sample_rate : ℚ) * r.min_speech_duration_s ≤ (sa.length : ℚ)
            ∧ e.2.1 = (if (r.sample_rate : ℚ) * r.max_speech_duration_s < (sa.length : ℚ)
                then sa.take (pyInt ((r.sample_rate : ℚ) * r.max_speech_duration_s)).toNat
                else sa)
            ∧ e.2.1.length
                ≤ (pyInt ((r.sample_rate : ℚ) * r.max_speech_duration_s)).toNat
            ∧ ((r.sample_rate : ℚ) * r.min_speech_duration_s
                  ≤ ((pyInt ((r.sample_rate : ℚ) * r.max_speech_duration_s)).toNat : ℚ) →
                (r.sample_rate : ℚ) * r.min_speech_duration_s ≤ (e.2.1.length : ℚ)))
      ∧ (∀ (c : List ℚ) (p : ℚ), r.callback_is_coroutine = true →
          ¬ r.threshold < p → 0 ≤ r.speech_start_index →
          r.silence_duration_frames ≤ ((r.silence_counter + 1 : Nat) : Int) →
          (r.extracted.length : ℚ) < (r.sample_rate : ℚ) * r.min_speech_duration_s →
          dispatchedEvents (r.process_audio_chunk c (Except.ok p)).2 = [] ∧
            notifiedEvents (r.process_audio_chunk c (Except.ok p)).2
              = [(SRState.SPEECH_END, r.speech_id, 0)]) := by
  refine ⟨fun sa h => r.trigger_recognition_skip sa h, ?_, ?_⟩
  · intro sa e he
    rcases r.trigger_recognition_shape sa with hsh | ⟨hsh, hmin, h0⟩
    · rw [hsh] at he
      simp [dispatchedEvents] at he
    · rw [hsh] at he
      simp only [dispatchedEvents, List.filterMap_cons, List.filterMap_nil] at he
      rw [List.mem_singleton] at he
      subst he
      refine ⟨not_lt.mp hmin, rfl, ?_, ?_⟩
      · by_cases hlong :
            (r.sample_rate : ℚ) * r.max_speech_duration_s < (sa.length : ℚ)
        · dsimp only
          rw [if_pos hlong, List.length_take]
          exact Nat.min_le_left _ _
        · dsimp only
          rw [if_neg hlong]
          have hle : (sa.length : ℚ) ≤ (r.sample_rate : ℚ) * r.max_speech_duration_s :=
            not_lt.mp hlong
          have h0q : 0 ≤ (r.sample_rate : ℚ) * r.max_speech_duration_s :=
            le_trans (Nat.cast_nonneg _) hle
          unfold pyInt
          rw [if_pos h0q]
          have hfl : (sa.length : ℤ)
              ≤ ⌊(r.sample_rate : ℚ) * r.max_speech_duration_s⌋ :=
            Int.le_floor.mpr (by exact_mod_cast hle)
          calc sa.length = ((sa.length : ℤ)).toNat := by simp
            _ ≤ _ := Int.toNat_le_toNat hfl
      · intro hminmax
        by_cases hlong :
            (r.sample_rate : ℚ) * r.max_speech_duration_s < (sa.length : ℚ)
        · dsimp only
          rw [if_pos hlong, List.length_take, Nat.cast_min]
          exact le_min hminmax (not_lt.mp hmin)
        · dsimp only
          rw [if_neg hlong]
          exact not_lt.mp hmin
  · intro c p hcb hp hsp hcnt hshort
    rw [r.process_audio_chunk_end c p hcb hp hsp hcnt,
      r.trigger_recognition_skip r.extracted hshort]
    exact ⟨rfl, rfl⟩

/-- Witness for `C6_min_length_dispatch`: at `rC6` the 16-sample utterance is
dispatched truncated to 2 samples — the source array meets the minimum, the
dispatched array meets the truncated maximum — and a 2-sample utterance
(below the 16-sample minimum) is not dispatched at all. -/
theorem C6_min_length_dispatch_witness :
    (((rC6.speech_id, [0, 0], rC6.prompt) : Option Nat × List ℚ × Option String)
        ∈ dispatchedEvents (rC6.trigger_recognition (List.replicate 16 0))) ∧
      ((rC6.sample_rate : ℚ) * rC6.min_speech_duration_s
          ≤ ((List.replicate 16 (0 : ℚ)).length : ℚ)) ∧
      (((rC6.speech_id, [0, 0], rC6.prompt) : Option Nat × List ℚ × Option String).2.1.length
          ≤ (pyInt ((rC6.sample_rate : ℚ) * rC6.max_speech_duration_s)).toNat) ∧
      (((2 : Nat) : ℚ) < (rC6.sample_rate : ℚ) * rC6.min_speech_duration_s) ∧
      rC6.trigger_recognition [0, 0] = [] := by
  refine ⟨by decide, ?_, ?_, by decide, ?_⟩
  · exact ((C6_min_length_dispatch rC6).2.1 (List.replicate 16 0)
      (rC6.speech_id, [0, 0], rC6.prompt) (by decide)).1
  · exact ((C6_min_length_dispatch rC6).2.1 (List.replicate 16 0)
      (rC6.speech_id, [0, 0], rC6.prompt) (by decide)).2.2.1
  · exact (C6_min_length_dispatch rC6).1 [0, 0] (by decide)

/-!
## Claim C5 — event ordering within a session

Events are abstracted to a `(SpeechStart S · dispatch S? · SpeechEnd S)*`
automaton whose second component is a lower bound on the ids that may still be
started, making accepted start ids strictly increasing (uuid freshness).
-/

/-- The speech-start transition, with a coroutine callback: a fresh id is
assigned, the start index recorded, and the SpeechStart notification issued
with the fresh id. -/
theorem SpeechRecognizer.process_audio_chunk_start (r : SpeechRecognizer)
    (c : List ℚ) (p : ℚ) (hcb : r.callback_is_coroutine = true)
    (hp : r.threshold < p) (hsp : r.speech_start_index < 0) :
    r.process_audio_chunk c (Except.ok p)
      = ({ r with
            speech_id := some r.next_id
            next_id := r.next_id + 1
            speech_start_index := max 0 ((r.audio_buffer.size : Int) -
              pyInt ((r.sample_rate : ℚ) * r.prefix_speech_pad_s))
            silence_counter := 0 },
          [TraceEntry.scored c,
            TraceEntry.notified SRState.SPEECH_START (some r.next_id)
              r.audio_buffer.size]) := by
  unfold SpeechRecognizer.process_audio_chunk
  dsimp only
  rw [if_pos hp, if_pos hsp]
  simp only [SpeechRecognizer.notify]
  rw [if_pos hcb]
  rfl

/-- A speech frame while already IN_SPEECH only resets the silence counter. -/
theorem SpeechRecognizer.process_audio_chunk_continue (r : SpeechRecognizer)
    (c : List ℚ) (p : ℚ) (hp : r.threshold < p) (hsp : 0 ≤ r.speech_start_index) :
    r.process_audio_chunk c (Except.ok p)
      = ({ r with silence_counter := 0 }, [TraceEntry.scored c]) := by
  unfold SpeechRecognizer.process_audio_chunk
  dsimp only
  rw [if_pos hp, if_neg (by omega)]

/-- A silent frame IN_SPEECH below the silence limit only increments the
counter. -/
theorem SpeechRecognizer.process_audio_chunk_silence_below (r : SpeechRecognizer)
    (c : List ℚ) (p : ℚ) (hp : ¬ r.threshold < p) (hsp : 0 ≤ r.speech_start_index)
    (hcnt : ¬ r.silence_duration_frames ≤ ((r.silence_counter + 1 : Nat) : Int)) :
    r.process_audio_chunk c (Except.ok p)
      = ({ r with silence_counter := r.silence_counter + 1 }, [TraceEntry.scored c]) := by
  unfold SpeechRecognizer.process_audio_chunk
  dsimp only
  rw [if_neg hp, if_pos hsp, if_neg hcnt]

/-- Session events relevant to the ordering claim: SpeechStart / SpeechEnd
notifications and `recognize_async` dispatches, each with its `speech_id`. -/
inductive SessEvent where
  | start (sid : Option Nat)
  | stop (sid : Option Nat)
  | disp (sid : Option Nat)
deriving DecidableEq, Repr

/-- The ordered session events of a trace. -/
def sessionEvents (tr : List TraceEntry) : List SessEvent :=
  tr.filterMap (fun e =>
    match e with
    | TraceEntry.notified SRState.SPEECH_START sid _ => some (SessEvent.start sid)
    | TraceEntry.notified SRState.SPEECH_END sid _ => some (SessEvent.stop sid)
    | TraceEntry.dispatched sid _ _ => some (SessEvent.disp sid)
    | _ => none)

theorem sessionEvents_append (a b : List TraceEntry) :
    sessionEvents (a ++ b) = sessionEvents a ++ sessionEvents b := by
  simp [sessionEvents]

/-- The regex phase a session state sits in between frames. -/
inductive AltPhase where
  | idle
  | speaking (s : Nat)
  | afterDisp (s : Nat)
deriving DecidableEq, Repr

/-- The phase of a pipeline state. -/
def phaseOf (r : SpeechRecognizer) : AltPhase :=
  match r.speech_id with
  | none => AltPhase.idle
  | some s => AltPhase.speaking s

/-- One step of the `(start S · disp S? · stop S)*` automaton; `none`
rejects.  The second component is a lower bound on ids that may still be
started. -/
def altStep : AltPhase × Nat → SessEvent → Option (AltPhase × Nat)
  | (AltPhase.idle, n), SessEvent.start (some s) =>
      if n ≤ s then some (AltPhase.speaking s, s + 1) else none
  | (AltPhase.speaking s, n), SessEvent.disp (some t) =>
      if t = s then some (AltPhase.afterDisp s, n) else none
  | (AltPhase.speaking s, n), SessEvent.stop (some t) =>
      if t = s then some (AltPhase.idle, n) else none
  | (AltPhase.afterDisp s, n), SessEvent.stop (some t) =>
      if t = s then some (AltPhase.idle, n) else none
  | _, _ => none

/-- Run the automaton over an event list. -/
def altFold : AltPhase × Nat → List SessEvent → Option (AltPhase × Nat)
  | st, [] => some st
  | st, e :: es =>
    match altStep st e with
    | none => none
    | some st2 => altFold st2 es

theorem altFold_append (l₁ l₂ : List SessEvent) : ∀ st : AltPhase × Nat,
    altFold st (l₁ ++ l₂)
      = match altFold st l₁ with
        | none => none
        | some st2 => altFold st2 l₂ := by
  induction l₁ with
  | nil => intro st; rfl
  | cons e es ih =>
    intro st
    show (match altStep st e with
        | none => none
        | some st2 => altFold st2 (es ++ l₂)) = _
    rcases h : altStep st e with _ | st2
    · rw [altFold, h]
    · rw [altFold, h]
      exact ih st2

/-- The ids carried by SpeechStart events, in order. -/
def startIds (evs : List SessEvent) : List Nat :=
  evs.filterMap (fun e =>
    match e with
    | SessEvent.start (some s) => some s
    | _ => none)

theorem startIds_cons_start (s : Nat) (es : List SessEvent) :
    startIds (SessEvent.start (some s) :: es) = s :: startIds es := rfl

theorem startIds_cons_other (e : SessEvent) (es : List SessEvent)
    (h : ∀ s : Nat, e ≠ SessEvent.start (some s)) :
    startIds (e :: es) = startIds es := by
  rcases e with (_ | s) | sid | sid
  · rfl
  · exact absurd rfl (h s)
  · rfl
  · rfl

/-- Inversion of a successful automaton step. -/
theorem altStep_cases {ph : AltPhase} {n : Nat} {e : SessEvent} {st2 : AltPhase × Nat}
    (h : altStep (ph, n) e = some st2) :
    (∃ s, ph = AltPhase.idle ∧ e = SessEvent.start (some s) ∧ n ≤ s ∧
        st2 = (AltPhase.speaking s, s + 1))
      ∨ (∃ s, ph = AltPhase.speaking s ∧ e = SessEvent.disp (some s) ∧
        st2 = (AltPhase.afterDisp s, n))
      ∨ (∃ s, ph = AltPhase.speaking s ∧ e = SessEvent.stop (some s) ∧
        st2 = (AltPhase.idle, n))
      ∨ (∃ s, ph = AltPhase.afterDisp s ∧ e = SessEvent.stop (some s) ∧
        st2 = (AltPhase.idle, n)) := by
  rcases ph with _ | s | s <;> rcases e with (_ | s') | (_ | s') | (_ | s') <;>
    simp [altStep, Option.ite_none_right_eq_some] at h
  · exact Or.inl ⟨s', rfl, rfl, h.1, h.2.symm⟩
  · exact Or.inr (Or.inr (Or.inl ⟨s, rfl, by rw [h.1], h.2.symm⟩))
  · exact Or.inr (Or.inl ⟨s, rfl, by rw [h.1], h.2.symm⟩)
  · exact Or.inr (Or.inr (Or.inr ⟨s, rfl, by rw [h.1], h.2.symm⟩))

/-- A successful step never lowers the freshness bound, and a start id lies
between the old and new bounds. -/
theorem altStep_mono {ph : AltPhase} {n : Nat} {e : SessEvent} {st2 : AltPhase × Nat}
    (h : altStep (ph, n) e = some st2) :
    n ≤ st2.2 ∧ ∀ s : Nat, e = SessEvent.start (some s) → n ≤ s ∧ s < st2.2 := by
  rcases altStep_cases h with ⟨s, hph, he, hns, hst⟩ | ⟨s, hph, he, hst⟩
      | ⟨s, hph, he, hst⟩ | ⟨s, hph, he, hst⟩ <;> subst hst <;> subst he
  · refine ⟨by omega, ?_⟩
    intro t ht
    have hts : s = t := by simpa using ht
    subst hts
    exact ⟨hns, by omega⟩
  · refine ⟨le_rfl, ?_⟩
    intro t ht
    simp at ht
  · refine ⟨le_rfl, ?_⟩
    intro t ht
    simp at ht
  · refine ⟨le_rfl, ?_⟩
    intro t ht
    simp at ht

/-- Acceptance bounds: the final freshness bound dominates the initial one,
every accepted start id is at least the initial bound, and the accepted start
ids are strictly increasing (hence pairwise distinct). -/
theorem altFold_bound : ∀ (evs : List SessEvent) (ph : AltPhase) (n : Nat)
    (st' : AltPhase × Nat), altFold (ph, n) evs = some st' →
    n ≤ st'.2 ∧ (∀ s ∈ startIds evs, n ≤ s) ∧ List.Pairwise (· < ·) (startIds evs) := by
  intro evs
  induction evs with
  | nil =>
    intro ph n st' h
    cases h
    exact ⟨le_rfl, by simp [startIds], List.Pairwise.nil⟩
  | cons e es ih =>
    intro ph n st' h
    rw [altFold] at h
    rcases hstep : altStep (ph, n) e with _ | st2
    · rw [hstep] at h
      cases h
    · rw [hstep] at h
      dsimp only at h
      obtain ⟨st2a, st2b⟩ := st2
      have hm := altStep_mono hstep
      have hrec := ih st2a st2b st' h
      by_cases hse : ∃ s, e = SessEvent.start (some s)
      · obtain ⟨s, rfl⟩ := hse
        have hm2 := hm.2 s rfl
        rw [startIds_cons_start]
        refine ⟨le_trans hm.1 hrec.1, ?_, ?_⟩
        · intro t ht
          rcases List.mem_cons.mp ht with rfl | ht
          · exact hm2.1
          · exact le_trans hm.1 (hrec.2.1 t ht)
        · rw [List.pairwise_cons]
          exact ⟨fun t ht => lt_of_lt_of_le hm2.2 (hrec.2.1 t ht), hrec.2.2⟩
      · rw [startIds_cons_other e es (fun s hs => hse ⟨s, hs⟩)]
        exact ⟨le_trans hm.1 hrec.1,
          fun t ht => le_trans hm.1 (hrec.2.1 t ht), hrec.2.2⟩

/-- In an accepted event list, a SpeechEnd for id `s` is preceded by a
SpeechStart for `s` unless the run began inside utterance `s`. -/
theorem altFold_stop_mem : ∀ (l₁ : List SessEvent) (ph : AltPhase) (n : Nat) (s : Nat)
    (l₂ : List SessEvent) (st' : AltPhase × Nat),
    altFold (ph, n) (l₁ ++ SessEvent.stop (some s) :: l₂) = some st' →
    SessEvent.start (some s) ∈ l₁ ∨ ph = AltPhase.speaking s ∨ ph = AltPhase.afterDisp s := by
  intro l₁
  induction l₁ with
  | nil =>
    intro ph n s l₂ st' h
    rw [List.nil_append, altFold] at h
    rcases hstep : altStep (ph, n) (SessEvent.stop (some s)) with _ | st2
    · rw [hstep] at h
      cases h
    · rcases altStep_cases hstep with ⟨t, hph, he, _, _⟩ | ⟨t, hph, he, _⟩
          | ⟨t, hph, he, _⟩ | ⟨t, hph, he, _⟩
      · simp at he
      · simp at he
      · have hts : s = t := by simpa using he
        subst hts
        exact Or.inr (Or.inl hph)
      · have hts : s = t := by simpa using he
        subst hts
        exact Or.inr (Or.inr hph)
  | cons e l₁ ih =>
    intro ph n s l₂ st' h
    rw [List.cons_append, altFold] at h
    rcases hstep : altStep (ph, n) e with _ | st2
    · rw [hstep] at h
      cases h
    · rw [hstep] at h
      dsimp only at h
      obtain ⟨st2a, st2b⟩ := st2
      rcases ih st2a st2b s l₂ st' h with hmem | hsp | had
      · exact Or.inl (List.mem_cons_of_mem e hmem)
      · rcases altStep_cases hstep with ⟨t, hph, he, _, hst⟩ | ⟨t, hph, he, hst⟩
            | ⟨t, hph, he, hst⟩ | ⟨t, hph, he, hst⟩ <;>
          rw [Prod.mk.injEq] at hst
        · rw [hsp] at hst
          have hts : t = s := by simpa using hst.1.symm
          subst hts
          subst he
          exact Or.inl (List.mem_cons_self _ _)
        · rw [hsp] at hst
          simp at hst
        · rw [hsp] at hst
          simp at hst
        · rw [hsp] at hst
          simp at hst
      · rcases altStep_cases hstep with ⟨t, hph, he, _, hst⟩ | ⟨t, hph, he, hst⟩
            | ⟨t, hph, he, hst⟩ | ⟨t, hph, he, hst⟩ <;>
          rw [Prod.mk.injEq] at hst
        · rw [had] at hst
          simp at hst
        · rw [had] at hst
          have hts : t = s := by simpa using hst.1.symm
          subst hts
          subst hph
          exact Or.inr (Or.inl rfl)
        · rw [had] at hst
          simp at hst
        · rw [had] at hst
          simp at hst

/-- In an accepted event list, a dispatch for id `s` is preceded by a
SpeechStart for `s` unless the run began inside utterance `s`. -/
theorem altFold_disp_mem : ∀ (l₁ : List SessEvent) (ph : AltPhase) (n : Nat) (s : Nat)
    (l₂ : List SessEvent) (st' : AltPhase × Nat),
    altFold (ph, n) (l₁ ++ SessEvent.disp (some s) :: l₂) = some st' →
    SessEvent.start (some s) ∈ l₁ ∨ ph = AltPhase.speaking s := by
  intro l₁
  induction l₁ with
  | nil =>
    intro ph n s l₂ st' h
    rw [List.nil_append, altFold] at h
    rcases hstep : altStep (ph, n) (SessEvent.disp (some s)) with _ | st2
    · rw [hstep] at h
      cases h
    · rcases altStep_cases hstep with ⟨t, hph, he, _, _⟩ | ⟨t, hph, he, _⟩
          | ⟨t, hph, he, _⟩ | ⟨t, hph, he, _⟩
      · simp at he
      · have hts : s = t := by simpa using he
        subst hts
        exact Or.inr hph
      · simp at he
      · simp at he
  | cons e l₁ ih =>
    intro ph n s l₂ st' h
    rw [List.cons_append, altFold] at h
    rcases hstep : altStep (ph, n) e with _ | st2
    · rw [hstep] at h
      cases h
    · rw [hstep] at h
      dsimp only at h
      obtain ⟨st2a, st2b⟩ := st2
      rcases ih st2a st2b s l₂ st' h with hmem | hsp
      · exact Or.inl (List.mem_cons_of_mem e hmem)
      · rcases altStep_cases hstep with ⟨t, hph, he, _, hst⟩ | ⟨t, hph, he, hst⟩
            | ⟨t, hph, he, hst⟩ | ⟨t, hph, he, hst⟩ <;>
          rw [Prod.mk.injEq] at hst
        · rw [hsp] at hst
          have hts : t = s := by simpa using hst.1.symm
          subst hts
          subst he
          exact Or.inl (List.mem_cons_self _ _)
        · rw [hsp] at hst
          simp at hst
        · rw [hsp] at hst
          simp at hst
        · rw [hsp] at hst
          simp at hst

/-- A member of a strictly increasing list occurs exactly once. -/
theorem count_eq_one_of_pairwise_mem {l : List Nat} (hp : List.Pairwise (· < ·) l)
    {s : Nat} (hs : s ∈ l) : l.count s = 1 := by
  have hnd : l.Nodup := hp.imp (fun h => Nat.ne_of_lt h)
  exact List.count_eq_one_of_mem hnd hs

/-- A SpeechStart event contributes its id to `startIds`. -/
theorem mem_startIds {evs : List SessEvent} {s : Nat}
    (h : SessEvent.start (some s) ∈ evs) : s ∈ startIds evs := by
  unfold startIds
  exact List.mem_filterMap.mpr ⟨SessEvent.start (some s), h, rfl⟩

/-- C5: in a coroutine-callback session started outside an utterance, the
emitted event sequence is accepted by the `(SpeechStart S · dispatch S? ·
SpeechEnd S)*` automaton (prefix-closed: the final phase is the final state's
phase), the started ids are strictly increasing (fresh), every SpeechEnd for
id `s` is preceded by exactly one SpeechStart for `s`, every dispatch for `s`
is preceded by its SpeechStart, and on the end transition the SpeechEnd
notification still carries the current `speech_id`, which is cleared only
afterwards. -/
theorem C5_event_ordering (r : SpeechRecognizer)
    (hcb : r.callback_is_coroutine = true)
    (hnone : r.speech_id = none) (hidle : r.speech_start_index < 0)
    (inputs : List (List Nat × List VadOutcome))
    (res : SpeechRecognizer × List TraceEntry) (hres : r.run inputs = some res) :
    altFold (AltPhase.idle, r.next_id) (sessionEvents res.2)
        = some (phaseOf res.1, res.1.next_id)
      ∧ List.Pairwise (· < ·) (startIds (sessionEvents res.2))
      ∧ (∀ (s : Nat) (l₁ l₂ : List SessEvent),
          sessionEvents res.2 = l₁ ++ SessEvent.stop (some s) :: l₂ →
          SessEvent.start (some s) ∈ l₁
            ∧ (startIds (sessionEvents res.2)).count s = 1)
      ∧ (∀ (s : Nat) (l₁ l₂ : List SessEvent),
          sessionEvents res.2 = l₁ ++ SessEvent.disp (some s) :: l₂ →
          SessEvent.start (some s) ∈ l₁)
      ∧ (∀ (r' : SpeechRecognizer) (c : List ℚ) (p : ℚ),
          r'.callback_is_coroutine = true → ¬ r'.threshold < p →
          0 ≤ r'.speech_start_index →
          r'.silence_duration_frames ≤ ((r'.silence_counter + 1 : Nat) : Int) →
          (r'.process_audio_chunk c (Except.ok p)).1.speech_id = none ∧
            notifiedEvents (r'.process_audio_chunk c (Except.ok p)).2
              = [(SRState.SPEECH_END, r'.speech_id, 0)]) := by
  have hS : RunSim (fun s => s.callback_is_coroutine = true ∧
      (s.speech_id.isSome = true ↔ 0 ≤ s.speech_start_index))
      (AltPhase × Nat) (fun s => (phaseOf s, s.next_id))
      (fun a tr b => altFold a (sessionEvents tr) = some b)
      (fun _ => True) := by
    refine ⟨?_, ?_, ?_, trivial, fun _ => rfl, ?_⟩
    · intro s c v hP _
      obtain ⟨hscb, hwf⟩ := hP
      rcases v with e | p
      · rw [SpeechRecognizer.process_audio_chunk_error]
        exact ⟨⟨hscb, hwf⟩, rfl⟩
      · by_cases hp : s.threshold < p
        · by_cases hsp : s.speech_start_index < 0
          · have hid : s.speech_id = none := by
              rcases hnid : s.speech_id with _ | t
              · rfl
              · have := hwf.mp (by rw [hnid]; rfl)
                omega
            rw [SpeechRecognizer.process_audio_chunk_start s c p hscb hp hsp]
            constructor
            · refine ⟨hscb, ?_, ?_⟩
              · intro _
                exact le_max_left 0 _
              · intro _
                rfl
            · have hph : phaseOf s = AltPhase.idle := by
                unfold phaseOf
                rw [hid]
              rw [hph]
              simp [sessionEvents, altFold, altStep, phaseOf]
          · rw [SpeechRecognizer.process_audio_chunk_continue s c p hp (by omega)]
            exact ⟨⟨hscb, hwf⟩, rfl⟩
        · by_cases hsp : 0 ≤ s.speech_start_index
          · by_cases hcnt :
                s.silence_duration_frames ≤ ((s.silence_counter + 1 : Nat) : Int)
            · obtain ⟨sid, hsid⟩ : ∃ t, s.speech_id = some t := by
                rcases hnid : s.speech_id with _ | t
                · have := hwf.mpr hsp
                  rw [hnid] at this
                  simp at this
                · exact ⟨t, rfl⟩
              rw [SpeechRecognizer.process_audio_chunk_end s c p hscb hp hsp hcnt]
              constructor
              · refine ⟨hscb, ?_, ?_⟩
                · intro h
                  simp at h
                · intro h
                  simp at h
              · have hph : phaseOf s = AltPhase.speaking sid := by
                  unfold phaseOf
                  rw [hsid]
                rcases s.trigger_recognition_shape s.extracted with hsh | ⟨hsh, _, _⟩
                · rw [hsh, hph, hsid]
                  simp [sessionEvents, altFold, altStep, phaseOf]
                · rw [hsh, hph, hsid]
                  simp [sessionEvents, altFold, altStep, phaseOf]
            · rw [SpeechRecognizer.process_audio_chunk_silence_below s c p hp hsp hcnt]
              exact ⟨⟨hscb, hwf⟩, rfl⟩
          · rw [SpeechRecognizer.process_audio_chunk_idle_silence s c p hp (by omega)]
            exact ⟨⟨hscb, hwf⟩, rfl⟩
    · intro s samples hP
      exact ⟨hP, rfl⟩
    · intro s b hP
      exact ⟨hP, rfl⟩
    · intro a t1 b t2 cc h1 h2
      rw [sessionEvents_append, altFold_append, h1]
      exact h2
  have hP0 : r.callback_is_coroutine = true ∧
      (r.speech_id.isSome = true ↔ 0 ≤ r.speech_start_index) := by
    refine ⟨hcb, ?_⟩
    rw [hnone]
    constructor
    · intro h
      simp at h
    · intro h
      exact absurd h (by omega)
  have hrun := RunSim.run hS inputs r hP0 (fun _ _ _ _ => trivial) res hres
  have hph0 : phaseOf r = AltPhase.idle := by
    unfold phaseOf
    rw [hnone]
  have h1 : altFold (AltPhase.idle, r.next_id) (sessionEvents res.2)
      = some (phaseOf res.1, res.1.next_id) := by
    have h := hrun.2
    rwa [hph0] at h
  refine ⟨h1, (altFold_bound _ _ _ _ h1).2.2, ?_, ?_, ?_⟩
  · intro s l₁ l₂ heq
    have h2 := h1
    rw [heq] at h2
    have hmem : SessEvent.start (some s) ∈ l₁ := by
      rcases altFold_stop_mem l₁ AltPhase.idle r.next_id s l₂ _ h2 with hm | hph | hph
      · exact hm
      · simp at hph
      · simp at hph
    refine ⟨hmem, ?_⟩
    have hsmem : s ∈ startIds (sessionEvents res.2) := by
      rw [heq]
      exact mem_startIds (List.mem_append_left _ hmem)
    exact count_eq_one_of_pairwise_mem (altFold_bound _ _ _ _ h1).2.2 hsmem
  · intro s l₁ l₂ heq
    have h2 := h1
    rw [heq] at h2
    rcases altFold_disp_mem l₁ AltPhase.idle r.next_id s l₂ _ h2 with hm | hph
    · exact hm
    · simp at hph
  · intro r' c p hcb' hp' hsp' hcnt'
    rw [r'.process_audio_chunk_end c p hcb' hp' hsp' hcnt']
    refine ⟨rfl, ?_⟩
    rw [notifiedEvents_append, notifiedEvents_append,
      r'.trigger_recognition_notified r'.extracted]
    rfl

/-- Witness for `C5_event_ordering`: a full utterance (start, dispatch, end)
from a fresh coroutine session is accepted by the automaton. -/
theorem C5_event_ordering_witness :
    (SpeechRecognizer.init cfgW true).callback_is_coroutine = true ∧
      (SpeechRecognizer.init cfgW true).speech_id = none ∧
      (SpeechRecognizer.init cfgW true).speech_start_index < 0 ∧
      Option.map (fun res => decide (altFold (AltPhase.idle,
            (SpeechRecognizer.init cfgW true).next_id) (sessionEvents res.2)
          = some (phaseOf res.1, res.1.next_id)))
        ((SpeechRecognizer.init cfgW true).run
          [([0, 0, 0, 0, 0, 0], [Except.ok 1]),
           ([0, 0, 0, 0, 0, 0], [Except.ok 0, Except.ok 0])])
        = some true := by
  refine ⟨by decide, by decide, by decide, ?_⟩
  rcases hrun : (SpeechRecognizer.init cfgW true).run
      [([0, 0, 0, 0, 0, 0], [Except.ok 1]), ([0, 0, 0, 0, 0, 0], [Except.ok 0, Except.ok 0])]
    with _ | res
  · have hsome : ((SpeechRecognizer.init cfgW true).run
        [([0, 0, 0, 0, 0, 0], [Except.ok 1]),
         ([0, 0, 0, 0, 0, 0], [Except.ok 0, Except.ok 0])]).isSome = true := by decide
    rw [hrun] at hsome
    exact absurd hsome (by decide)
  · have h := C5_event_ordering (SpeechRecognizer.init cfgW true) (by decide) (by decide)
      (by decide) [([0, 0, 0, 0, 0, 0], [Except.ok 1]),
        ([0, 0, 0, 0, 0, 0], [Except.ok 0, Except.ok 0])] res hrun
    rw [show Option.map (fun res => decide (altFold (AltPhase.idle,
          (SpeechRecognizer.init cfgW true).next_id) (sessionEvents res.2)
        = some (phaseOf res.1, res.1.next_id))) (some res)
      = some (decide (altFold (AltPhase.idle, (SpeechRecognizer.init cfgW true).next_id)
          (sessionEvents res.2) = some (phaseOf res.1, res.1.next_id))) from rfl]
    exact congrArg some (decide_eq_true h.1)
